import Mathlib

/-!
Verification development for the spellbook-engine markdown/SpellBlock parser.

The Python source (`spellbook_engine/parser.py`, `base_block.py`) is embedded
shallowly: text is `List Char`, the regular expressions of the parser are
translated into executable structural scanners with the same matching
semantics, and the collaborator objects (block registry, Jinja templates,
the markdown library) are parameters that may fault, modelled with
`Except`.

Notes on fidelity of the regex translation:
* `SPELLBLOCK_PATTERN = r"\x7b~\s*(\w+)\s*([^~]*?)\s*~\x7d(.*?)(?:\x7b~~\x7d)"`
  (DOTALL): the lazy groups mean: the attribute substring runs from the end
  of the name to the first `~` (which must begin the terminator), with the
  greedy `\s*`s taking maximal whitespace on each side; the content group
  runs to the textually first closing literal.  `matchOpenAt` and
  `findFirstClose` below implement exactly this.
* Python's `\w` / `\s` are modelled by their ASCII parts
  (the claims under study involve ASCII text only).
* `re.finditer` / `re.sub` scan left to right and continue after each
  match.  For the three tag patterns no match can begin strictly inside
  another match of the same pattern (a match's interior contains no
  `Char.ofNat 123` followed by `~` and no second closing literal), so the
  per-position scanners below produce exactly the finditer match lists.
-/

namespace Spellbook

/-- ASCII part of Python's `\s` (also used for `str.strip`). -/
def isWS (c : Char) : Bool :=
  c = ' ' || c = '\t' || c = '\n' || c = '\r' || c = Char.ofNat 11 || c = Char.ofNat 12

/-- ASCII part of Python's `\w`: letters, digits, underscore. -/
def isWord (c : Char) : Bool :=
  c.isAlphanum || c = '_'

/-- Not a tilde (the `[^~]` character class). -/
def notTilde (c : Char) : Bool := c ≠ '~'

/-- Python `str.strip()` (ASCII whitespace model). -/
def pyStrip (s : List Char) : List Char :=
  ((s.dropWhile isWS).reverse.dropWhile isWS).reverse

/-- Drop a maximal run of trailing whitespace (the final greedy `\s*`
before a tag terminator). -/
def dropTrailingWS (s : List Char) : List Char :=
  (s.reverse.dropWhile isWS).reverse

/-- The closing tag literal. -/
def closeLit : List Char := ['{', '~', '~', '}']

/-- Pieces of an opening/self-closing tag after the two leading characters:
leading whitespace, the name, whitespace after the name, and `mid`, the
run of non-`~` characters that must be followed by the `~` of the
terminator.  `none` when the name is empty (`\w+` fails). -/
def openCore (rest : List Char) :
    Option (List Char × List Char × List Char × List Char × List Char) :=
  let ws1 := rest.takeWhile isWS
  let r1 := rest.dropWhile isWS
  let name := r1.takeWhile isWord
  let r2 := r1.dropWhile isWord
  if name = [] then none
  else
    let ws2 := r2.takeWhile isWS
    let r3 := r2.dropWhile isWS
    let mid := r3.takeWhile notTilde
    let r4 := r3.dropWhile notTilde
    some (ws1, name, ws2, mid, r4)

/-- One match attempt of the opening-tag pattern
`\x7b~\s*(\w+)\s*([^~]*?)\s*~\x7d` at the head of `s`.  Returns the match
length, the captured name and the captured attribute substring. -/
def matchOpenAt (s : List Char) : Option (Nat × List Char × List Char) :=
  match s with
  | c1 :: c2 :: rest =>
    if c1 = '{' ∧ c2 = '~' then
      match openCore rest with
      | none => none
      | some (ws1, name, ws2, mid, r4) =>
        if r4.take 2 = ['~', '}'] then
          some (2 + ws1.length + name.length + ws2.length + mid.length + 2,
                name, dropTrailingWS mid)
        else none
    else none
  | _ => none

/-- One match attempt of the self-closing pattern
`\x7b~\s*(\w+)\s*([^~]*?)\s*/~\x7d` at the head of `s`. -/
def matchSelfCloseAt (s : List Char) : Option (Nat × List Char × List Char) :=
  match s with
  | c1 :: c2 :: rest =>
    if c1 = '{' ∧ c2 = '~' then
      match openCore rest with
      | none => none
      | some (ws1, name, ws2, mid, r4) =>
        if r4.take 2 = ['~', '}'] ∧ mid.getLast? = some '/' then
          some (2 + ws1.length + name.length + ws2.length + mid.length + 2,
                name, dropTrailingWS mid.dropLast)
        else none
    else none
  | _ => none

/-- One match attempt of the closing literal at the head of `s`. -/
def matchCloseAt (s : List Char) : Option Nat :=
  if s.take 4 = closeLit then some 4 else none

/-- Kind of a token recorded by `_detect_malformed_blocks` (self-closing
tags are detected but never put on the `tags` list). -/
inductive TagKind where
  | opening
  | closing
deriving DecidableEq, Repr

/-- A tag occurrence: `(type, start, end, name)` in the source. -/
structure Tag where
  kind : TagKind
  start : Nat
  stop : Nat
  name : List Char
deriving DecidableEq, Repr

/-- All positions where the opening pattern matches (the opening-tag
`finditer` of `_detect_malformed_blocks`). -/
def scanOpens : Nat → List Char → List Tag
  | _, [] => []
  | p, c :: cs =>
    match matchOpenAt (c :: cs) with
    | some (len, name, _) => ⟨.opening, p, p + len, name⟩ :: scanOpens (p + 1) cs
    | none => scanOpens (p + 1) cs

/-- All spans where the self-closing pattern matches. -/
def scanSelfSpans : Nat → List Char → List (Nat × Nat)
  | _, [] => []
  | p, c :: cs =>
    match matchSelfCloseAt (c :: cs) with
    | some (len, _, _) => (p, p + len) :: scanSelfSpans (p + 1) cs
    | none => scanSelfSpans (p + 1) cs

/-- All positions of the closing literal. -/
def scanCloses : Nat → List Char → List Tag
  | _, [] => []
  | p, c :: cs =>
    match matchCloseAt (c :: cs) with
    | some len => ⟨.closing, p, p + len, []⟩ :: scanCloses (p + 1) cs
    | none => scanCloses (p + 1) cs

/-- Stable insertion (ascending by key); a new element goes after existing
elements with an equal key, like Python's stable `list.sort`. -/
def insertAscBy (key : α → Nat) (x : α) : List α → List α
  | [] => [x]
  | y :: ys => if key y ≤ key x then y :: insertAscBy key x ys else x :: y :: ys

/-- Stable ascending sort by key (`tags.sort(key=lambda x: x[1])`). -/
def sortAscBy (key : α → Nat) (l : List α) : List α :=
  l.foldl (fun acc x => insertAscBy key x acc) []

/-- Stable insertion, descending by key. -/
def insertDescBy (key : α → Nat) (x : α) : List α → List α
  | [] => [x]
  | y :: ys => if key x ≤ key y then y :: insertDescBy key x ys else x :: y :: ys

/-- Stable descending sort by key
(`replacements.sort(key=lambda x: x[0], reverse=True)`). -/
def sortDescBy (key : α → Nat) (l : List α) : List α :=
  l.foldl (fun acc x => insertDescBy key x acc) []

/-- The token list of `_detect_malformed_blocks`: all self-closing spans are
found first; opening matches whose span is contained in a self-closing span
are discarded; the remaining opening tokens and the closing tokens are
merged and sorted by start offset. -/
def collectTags (text : List Char) : List Tag :=
  let selfs := scanSelfSpans 0 text
  let opens := (scanOpens 0 text).filter
    (fun t => ¬ selfs.any (fun sp => sp.1 ≤ t.start ∧ t.stop ≤ sp.2))
  sortAscBy Tag.start (opens ++ scanCloses 0 text)

/-- A structural error discovered by the matcher. -/
inductive ErrEvent where
  | orphanedClosing (start stop : Nat)
  | unclosedBlock (pos : Nat) (name : List Char)
deriving DecidableEq, Repr

/-- The token walk of `_detect_malformed_blocks` (lines 202-215): openings
push a frame, a closing with a non-empty stack pops the topmost frame
unconditionally, a closing with an empty stack is an orphaned closing.
Returns the orphan events in token order together with the final stack
(head = most recent frame). -/
def matchLoop : List Tag → List Tag → List ErrEvent × List Tag
  | [], stack => ([], stack)
  | t :: ts, stack =>
    match t.kind with
    | .opening => matchLoop ts (t :: stack)
    | .closing =>
      match stack with
      | [] =>
        let (es, s) := matchLoop ts []
        (.orphanedClosing t.start t.stop :: es, s)
      | _ :: s' => matchLoop ts s'

/-- All error events of a token list: orphaned closings in token order,
then one unclosed-block event per remaining frame, in the frames' push
order (Python iterates the stack list bottom to top). -/
def eventsOfTags (ts : List Tag) : List ErrEvent :=
  let (orphans, stack) := matchLoop ts []
  orphans ++ stack.reverse.map (fun t => .unclosedBlock t.stop t.name)

/-- The error events the structural matcher emits for a text segment. -/
def detectEvents (text : List Char) : List ErrEvent :=
  eventsOfTags (collectTags text)

/-- The edit for an event, given the presenter's rendered fragment: an
orphaned closing becomes a replacement over the closing token's span, an
unclosed block becomes a pure insertion right after the opening token. -/
def editOfEvent : ErrEvent → List Char → Nat × Nat × List Char
  | .orphanedClosing s e, r => (s, e, r)
  | .unclosedBlock p _, r => (p, p, r)

/-- Apply pending edits: sort descending by start (stable) and substitute
`replacement` for `text[start:end]`, one edit at a time. -/
def applyEdits (edits : List (Nat × Nat × List Char)) (text : List Char) :
    List Char :=
  (sortDescBy (fun e => e.1) edits).foldl
    (fun acc e => acc.take e.1 ++ e.2.2 ++ acc.drop e.2.1) text

/-- `_detect_malformed_blocks` with the presenter abstracted as a total
function from events to fragments. -/
def applyEventEdits (R : ErrEvent → List Char) (text : List Char) : List Char :=
  applyEdits ((detectEvents text).map (fun ev => editOfEvent ev (R ev))) text

/-! ### Attribute grammar (`_parse_arguments`) -/

/-- A parsed attribute value: a string, or `True` for a bare flag. -/
inductive AttrVal where
  | s (v : List Char)
  | b (v : Bool)
deriving DecidableEq, Repr, Inhabited

/-- First character of a key: `[a-zA-Z_]`. -/
def isKeyStart (c : Char) : Bool := c.isAlpha || c = '_'

/-- Subsequent key characters: `[\w-]`. -/
def isKeyChar (c : Char) : Bool := isWord c || c = '-'

/-- Characters allowed in an unquoted value: not whitespace and not one of
the quotes, `=`, `<`, `>`, backtick. -/
def isUnquotedChar (c : Char) : Bool :=
  !(isWS c) && c ≠ '"' && c ≠ '\'' && c ≠ '=' && c ≠ '<' && c ≠ '>' &&
    c ≠ Char.ofNat 96

/-- One match attempt of the argument pattern at the head of `s`: a key,
optionally `= value` with a double-quoted, single-quoted or unquoted value.
When the optional value part cannot match (no `=`, or a malformed value),
the match is the bare key, read as a flag, and its length is the key's
length — exactly the regex's optional group failing. -/
def matchArgAt (s : List Char) : Option (Nat × List Char × AttrVal) :=
  match s with
  | [] => none
  | c :: rest =>
    if isKeyStart c then
      let key := c :: rest.takeWhile isKeyChar
      let r1 := rest.dropWhile isKeyChar
      let klen := key.length
      let ws1 := r1.takeWhile isWS
      match r1.dropWhile isWS with
      | '=' :: r3 =>
        let ws2 := r3.takeWhile isWS
        match r3.dropWhile isWS with
        | '"' :: r5 =>
          let v := r5.takeWhile (fun d => d ≠ '"')
          match r5.dropWhile (fun d => d ≠ '"') with
          | '"' :: _ =>
            some (klen + ws1.length + 1 + ws2.length + 1 + v.length + 1, key, .s v)
          | _ => some (klen, key, .b true)
        | '\'' :: r5 =>
          let v := r5.takeWhile (fun d => d ≠ '\'')
          match r5.dropWhile (fun d => d ≠ '\'') with
          | '\'' :: _ =>
            some (klen + ws1.length + 1 + ws2.length + 1 + v.length + 1, key, .s v)
          | _ => some (klen, key, .b true)
        | r4 =>
          let v := r4.takeWhile isUnquotedChar
          if v = [] then some (klen, key, .b true)
          else some (klen + ws1.length + 1 + ws2.length + v.length, key, .s v)
      | _ => some (klen, key, .b true)
    else none

/-- The `finditer` scan of the argument pattern: leftmost matches, the scan
continuing after each match (fuel-driven; every match consumes at least the
key's one character, so fuel `s.length` never runs out). -/
def scanArgsGo : Nat → List Char → List (List Char × AttrVal)
  | 0, _ => []
  | _ + 1, [] => []
  | fuel + 1, c :: cs =>
    match matchArgAt (c :: cs) with
    | some (len, k, v) => (k, v) :: scanArgsGo fuel (cs.drop (len - 1))
    | none => scanArgsGo fuel cs

/-- All `(key, value)` matches of the argument pattern, in text order. -/
def scanArgs (s : List Char) : List (List Char × AttrVal) :=
  scanArgsGo s.length s

/-- Python dict assignment `kwargs[key] = value`: replace the value at an
existing key (keeping its position), else append. -/
def dictInsert (m : List (List Char × AttrVal)) (k : List Char) (v : AttrVal) :
    List (List Char × AttrVal) :=
  match m with
  | [] => [(k, v)]
  | (k', v') :: rest =>
    if k' = k then (k', v) :: rest else (k', v') :: dictInsert rest k v

/-- Build a dict from pairs in order, later assignments overwriting. -/
def pyDictOf (ps : List (List Char × AttrVal)) : List (List Char × AttrVal) :=
  ps.foldl (fun m kv => dictInsert m kv.1 kv.2) []

/-- First-match association lookup (Python `dict[key]`). -/
def lookupA (m : List (List Char × AttrVal)) (k : List Char) : Option AttrVal :=
  match m with
  | [] => none
  | (k', v) :: rest => if k' = k then some v else lookupA rest k

/-- `_parse_arguments`: empty or all-whitespace input gives the empty map,
otherwise the scanned pairs are entered into a dict in order. -/
def parse_arguments (args_str : List Char) : List (List Char × AttrVal) :=
  if pyStrip args_str = [] then [] else pyDictOf (scanArgs args_str)

/-! ### Monadic pipeline with faulting collaborators -/

/-- A Python exception at the parser boundary: either the dedicated
`ParserError` or any other exception. -/
inductive PyExc where
  | parserError (msg : List Char)
  | exc (msg : List Char)
deriving DecidableEq, Repr

/-- `str(e)`. -/
def excMsg : PyExc → List Char
  | .parserError m => m
  | .exc m => m

/-- Result of a pipeline stage. -/
abbrev PyRes := Except PyExc (List Char)

/-- The collaborators the parser calls out to: `registry.create_block`
(block lookup and instantiation, which may fault), `block.render()` (which
may fault), and `markdown.markdown` (which may fault).  `β` is the type of
instantiated block objects. -/
structure Collab (β : Type) where
  createBlock : List Char → List Char → List (List Char × AttrVal) → Except PyExc (Option β)
  renderBlock : β → Except PyExc (List Char)
  markdown : List Char → Except PyExc (List Char)

/-- Blank-line padding around rendered fragments. -/
def nl2 : List Char := ['\n', '\n']

/-- `_render_error`: instantiate the `render_error` block with the error
context and render it; fall back to a literal HTML comment when the block
is unavailable. -/
def render_error (c : Collab β) (etype bname msg sugg content : List Char) :
    PyRes := do
  let ob ← c.createBlock "render_error".data content
    [("error_type".data, .s etype), ("block_name".data, .s bname),
     ("message".data, .s msg), ("suggestion".data, .s sugg)]
  match ob with
  | some b => do
    let r ← c.renderBlock b
    pure (nl2 ++ pyStrip r ++ nl2)
  | none =>
    pure ("<!-- Error: ".data ++ etype ++ " for '".data ++ bname ++ "' -->".data)

/-- The presenter call for each structural error event. -/
def renderEventError (c : Collab β) : ErrEvent → PyRes
  | .orphanedClosing _ _ =>
    render_error c "orphaned_closing".data []
      "Found a closing tag \x7b~~\x7d without a matching opening tag.".data [] []
  | .unclosedBlock _ name =>
    render_error c "unclosed_block".data name [] [] []

/-- `_detect_malformed_blocks`: build the edits for all error events (each
fragment produced by the presenter) and apply them. -/
def detect_malformed_blocks (c : Collab β) (text : List Char) : PyRes := do
  let edits ← (detectEvents text).mapM (fun ev => do
    let r ← renderEventError c ev
    pure (editOfEvent ev r))
  pure (applyEdits edits text)

/-- The `try:` body of `_render_spellblock`: parse attributes, recursively
expand the content (`rec` is `_process_spellblocks` at the next recursion
depth), instantiate the block, render it and pad. -/
def render_spellblock_attempt (c : Collab β) (rec : List Char → PyRes)
    (bname args content : List Char) (selfClosing : Bool) : PyRes := do
  let kwargs := parse_arguments args
  let content2 ← if content.isEmpty || selfClosing then pure content else rec content
  let ob ← c.createBlock bname (if selfClosing then [] else content2) kwargs
  match ob with
  | none => render_error c "block_not_found".data bname [] [] []
  | some b => do
    let rendered ← c.renderBlock b
    if pyStrip rendered = [] then pure []
    else pure (nl2 ++ pyStrip rendered ++ nl2)

/-- `_render_spellblock`: any exception in the attempt is caught and turned
into a `render_exception` error fragment. -/
def render_spellblock (c : Collab β) (rec : List Char → PyRes)
    (bname args content : List Char) (selfClosing : Bool) : PyRes :=
  match render_spellblock_attempt c rec bname args content selfClosing with
  | .ok r => .ok r
  | .error e => render_error c "render_exception".data bname [] [] (excMsg e)

/-- `_process_self_closing_blocks`: `re.sub` with the self-closing pattern,
scanning left to right and substituting each match (fuel-driven; a step
consumes at least one character, so fuel `text.length + 1` never runs
out). -/
def process_self_closing_blocks (c : Collab β) (rec : List Char → PyRes) :
    Nat → List Char → PyRes
  | 0, text => .ok text
  | _ + 1, [] => .ok []
  | fuel + 1, x :: xs =>
    match matchSelfCloseAt (x :: xs) with
    | some (len, name, attrs) => do
      let r ← render_spellblock c rec name attrs [] true
      let tail ← process_self_closing_blocks c rec fuel (xs.drop (len - 1))
      pure (r ++ tail)
    | none => do
      let tail ← process_self_closing_blocks c rec fuel xs
      pure (x :: tail)

/-- Split at the textually first closing literal: `some (before, after)`
with the literal itself consumed. -/
def findFirstClose : List Char → Option (List Char × List Char)
  | [] => none
  | c :: cs =>
    if (c :: cs).take 4 = closeLit then some ([], cs.drop 3)
    else
      match findFirstClose cs with
      | some (a, b) => some (c :: a, b)
      | none => none

/-- `_process_content_blocks`: the `finditer` loop of `SPELLBLOCK_PATTERN`.
A match needs an opening tag at the current position and a closing literal
somewhere after it; the lazy content group runs to the first such literal.
When an opening tag has no closing literal anywhere after it, no later
position can match either (openings cannot begin inside this opening tag,
and any later opening sees a subset of the remaining text), so the whole
remainder is emitted verbatim. -/
def process_content_blocks (c : Collab β) (rec : List Char → PyRes) :
    Nat → List Char → PyRes
  | 0, text => .ok text
  | _ + 1, [] => .ok []
  | fuel + 1, x :: xs =>
    match matchOpenAt (x :: xs) with
    | some (len, name, attrs) =>
      match findFirstClose ((x :: xs).drop len) with
      | some (content, rest) => do
        let r ← render_spellblock c rec name attrs content false
        let tail ← process_content_blocks c rec fuel rest
        pure (r ++ tail)
      | none => .ok (x :: xs)
    | none => do
      let tail ← process_content_blocks c rec fuel xs
      pure (x :: tail)

/-- `_process_spellblocks`: malformed-block detection, then self-closing
blocks, then content blocks.  The `Nat` argument models Python's recursion
limit: each nested expansion descends one level, and running out raises a
`RecursionError`-like exception (caught, like any exception, by the
enclosing `_render_spellblock` or by `render`). -/
def process_spellblocks (c : Collab β) : Nat → List Char → PyRes
  | 0, _ => .error (.exc "maximum recursion depth exceeded".data)
  | d + 1, text => do
    let t1 ← detect_malformed_blocks c text
    let t2 ← process_self_closing_blocks c (process_spellblocks c d) (t1.length + 1) t1
    process_content_blocks c (process_spellblocks c d) (t2.length + 1) t2

/-! ### Fence segmenter (`_split_by_code_fences`) -/

/-- Prepend a character to the first line of a line list. -/
def consToHead (c : Char) : List (List Char) → List (List Char)
  | [] => [[c]]
  | l :: ls => (c :: l) :: ls

/-- Python `str.splitlines(keepends=True)`, modelling the common line
boundaries `\n`, `\r\n` and `\r` (the further Unicode boundaries Python
recognizes are irrelevant to the texts under study). -/
def splitLinesKeepEnds : List Char → List (List Char)
  | [] => []
  | '\r' :: '\n' :: rest => ['\r', '\n'] :: splitLinesKeepEnds rest
  | '\r' :: rest => ['\r'] :: splitLinesKeepEnds rest
  | '\n' :: rest => ['\n'] :: splitLinesKeepEnds rest
  | c :: rest => consToHead c (splitLinesKeepEnds rest)

/-- The three-backtick fence marker. -/
def fenceMarker : List Char := [Char.ofNat 96, Char.ofNat 96, Char.ofNat 96]

/-- `CODE_FENCE_PATTERN.match(line.strip())`: the stripped line starts with
three backticks. -/
def isFenceLine (line : List Char) : Bool :=
  decide ((pyStrip line).take 3 = fenceMarker)

/-- The segmenter loop: a fence line flushes the current segment, toggles
the code-block state and starts the next segment (the fence line belongs to
the segment it opens). -/
def sbcfLoop : List (List Char) → Bool → List (List Char) →
    List (List Char × Bool)
  | [], inCode, cur => if cur = [] then [] else [(cur.flatten, inCode)]
  | l :: ls, inCode, cur =>
    if isFenceLine l then
      (if cur = [] then [] else [(cur.flatten, inCode)]) ++ sbcfLoop ls (!inCode) [l]
    else sbcfLoop ls inCode (cur ++ [l])

/-- `_split_by_code_fences`. -/
def split_by_code_fences (text : List Char) : List (List Char × Bool) :=
  sbcfLoop (splitLinesKeepEnds text) false []

/-- The `try:` body of `render`: segment, expand spellblocks in non-code
segments, rejoin, hand to the markdown transform. -/
def render_body (c : Collab β) (d : Nat) (text : List Char) : PyRes := do
  let processed ← (split_by_code_fences text).mapM
    (fun seg => if seg.2 then pure seg.1 else process_spellblocks c d seg.1)
  c.markdown processed.flatten

/-- `render`: any exception anywhere in the body is caught once and
re-raised as a `ParserError`. -/
def render (c : Collab β) (d : Nat) (text : List Char) : PyRes :=
  match render_body c d text with
  | .ok h => .ok h
  | .error e =>
    .error (.parserError ("Failed to parse markdown: ".data ++ excMsg e))

/-! ### `BaseSpellBlock` (base_block.py) -/

/-- A block instance: inner content, an optional attached template (a
rendering function over the context, which may fault), and the declaration
kwargs. -/
structure PyBlock where
  content : List Char
  template : Option (List (List Char × AttrVal) → PyRes)
  kwargs : List (List Char × AttrVal)

/-- `BaseSpellBlock.process_content`: empty content gives `""`, otherwise
the stripped content goes through the markdown collaborator and the result
is stripped. -/
def block_process_content (md : List Char → PyRes) (b : PyBlock) : PyRes :=
  if b.content = [] then .ok []
  else do
    let h ← md (pyStrip b.content)
    pure (pyStrip h)

/-- `BaseSpellBlock.get_context`: the dict
`\x7b"content": process_content(), **kwargs\x7d`. -/
def block_get_context (md : List Char → PyRes) (b : PyBlock) :
    Except PyExc (List (List Char × AttrVal)) := do
  let pc ← block_process_content md b
  pure (b.kwargs.foldl (fun m kv => dictInsert m kv.1 kv.2)
    [("content".data, .s pc)])

/-- `BaseSpellBlock.render`: with no template, return the processed content
(outside any handler); with a template, build the context and render it,
catching any fault and returning the literal error comment. -/
def block_render (md : List Char → PyRes) (b : PyBlock) : PyRes :=
  match b.template with
  | none => block_process_content md b
  | some t =>
    match (do
        let ctx ← block_get_context md b
        t ctx : PyRes) with
    | .ok r => .ok r
    | .error e =>
      .ok ("<!-- Error rendering block: ".data ++ excMsg e ++ " -->".data)

end Spellbook

/-! ## Theorems -/

namespace Spellbook

theorem consToHead_flatten (c : Char) (ls : List (List Char)) :
    (consToHead c ls).flatten = c :: ls.flatten := by
  cases ls <;> simp [consToHead]

theorem splitLinesKeepEnds_flatten (s : List Char) :
    (splitLinesKeepEnds s).flatten = s := by
  induction s using splitLinesKeepEnds.induct <;>
    simp [splitLinesKeepEnds, consToHead_flatten, *]

theorem sbcfLoop_fst_flatten (ls : List (List Char)) :
    ∀ inCode cur,
      ((sbcfLoop ls inCode cur).map Prod.fst).flatten = cur.flatten ++ ls.flatten := by
  induction ls with
  | nil =>
    intro inCode cur
    by_cases h : cur = [] <;> simp [sbcfLoop, h]
  | cons l ls ih =>
    intro inCode cur
    by_cases hf : isFenceLine l
    · by_cases h : cur = [] <;> simp [sbcfLoop, hf, h, ih]
    · simp [sbcfLoop, hf, ih]

/-- C6: for every input text, the fence segmenter returns segments whose
in-order concatenation is character-for-character the original text. -/
theorem fence_segmenter_concat_c6 (text : List Char) :
    ((split_by_code_fences text).map Prod.fst).flatten = text := by
  rw [split_by_code_fences, sbcfLoop_fst_flatten]
  simp [splitLinesKeepEnds_flatten]

end Spellbook

namespace Spellbook

/-- The value of the last (rightmost) occurrence of key `k` among the
scanned `(key, value)` pairs. -/
def lastValue : List (List Char × AttrVal) → List Char → Option AttrVal
  | [], _ => none
  | kv :: rest, k =>
    match lastValue rest k with
    | some v => some v
    | none => if kv.1 = k then some kv.2 else none

theorem lookupA_dictInsert (m : List (List Char × AttrVal)) (k : List Char)
    (v : AttrVal) (k' : List Char) :
    lookupA (dictInsert m k v) k' = if k = k' then some v else lookupA m k' := by
  induction m with
  | nil =>
    by_cases h : k = k' <;> simp [dictInsert, lookupA, h]
  | cons kv rest ih =>
    obtain ⟨k0, v0⟩ := kv
    by_cases h0 : k0 = k
    · subst h0
      by_cases h : k0 = k' <;> simp [dictInsert, lookupA, h]
    · have h0' : ¬ k = k0 := fun hh => h0 hh.symm
      by_cases h : k0 = k'
      · subst h
        simp [dictInsert, lookupA, h0, h0']
      · simp [dictInsert, lookupA, h0, h, ih]

theorem keys_dictInsert (m : List (List Char × AttrVal)) (k : List Char)
    (v : AttrVal) :
    (dictInsert m k v).map Prod.fst =
      if k ∈ m.map Prod.fst then m.map Prod.fst else m.map Prod.fst ++ [k] := by
  induction m with
  | nil => simp [dictInsert]
  | cons kv rest ih =>
    obtain ⟨k0, v0⟩ := kv
    by_cases h0 : k0 = k
    · subst h0
      simp [dictInsert]
    · have h0' : ¬ k = k0 := fun hh => h0 hh.symm
      by_cases hm : k ∈ rest.map Prod.fst <;>
        simp [dictInsert, h0, h0', hm, ih]

theorem nodup_keys_dictInsert (m : List (List Char × AttrVal)) (k : List Char)
    (v : AttrVal) (h : (m.map Prod.fst).Nodup) :
    ((dictInsert m k v).map Prod.fst).Nodup := by
  rw [keys_dictInsert]
  by_cases hm : k ∈ m.map Prod.fst
  · simpa [hm] using h
  · simp only [hm, if_false]
    exact List.Nodup.append h (List.nodup_singleton k)
      (by simpa using fun hk => hm hk)

theorem nodup_keys_pyFold (ps : List (List Char × AttrVal)) :
    ∀ m, (m.map Prod.fst).Nodup →
      ((ps.foldl (fun m kv => dictInsert m kv.1 kv.2) m).map Prod.fst).Nodup := by
  induction ps with
  | nil => intro m h; simpa using h
  | cons kv rest ih =>
    intro m h
    exact ih _ (nodup_keys_dictInsert m kv.1 kv.2 h)

theorem lookupA_pyFold (ps : List (List Char × AttrVal)) :
    ∀ (m : List (List Char × AttrVal)) (k : List Char),
      lookupA (ps.foldl (fun m kv => dictInsert m kv.1 kv.2) m) k =
        match lastValue ps k with
        | some v => some v
        | none => lookupA m k := by
  induction ps with
  | nil => intro m k; simp [lastValue]
  | cons kv rest ih =>
    intro m k
    simp only [List.foldl_cons, ih, lastValue]
    cases hlv : lastValue rest k with
    | some v => simp
    | none =>
      by_cases hk : kv.1 = k
      · simp [hk, lookupA_dictInsert]
      · have hk' : ¬ k = kv.1 := fun hh => hk hh.symm
        simp [hk, hk', lookupA_dictInsert]

theorem pyStrip_eq_nil_all_ws {s : List Char} (h : pyStrip s = []) :
    ∀ c ∈ s, isWS c := by
  unfold pyStrip at h
  rw [List.reverse_eq_nil_iff, List.dropWhile_eq_nil_iff] at h
  intro c hc
  rw [← List.takeWhile_append_dropWhile (p := isWS) (l := s)] at hc
  rcases List.mem_append.1 hc with h2 | h2
  · exact List.mem_takeWhile_imp h2
  · exact h c (List.mem_reverse.2 h2)

theorem scanArgsGo_all_ws (fuel : Nat) :
    ∀ s : List Char, (∀ c ∈ s, isWS c) → scanArgsGo fuel s = [] := by
  induction fuel with
  | zero => intro s _; rfl
  | succ fuel ih =>
    intro s hs
    cases s with
    | nil => rfl
    | cons c cs =>
      have hws : isWS c := hs c (by simp)
      have hks : isKeyStart c = false := by
        simp only [isWS, Bool.or_eq_true, decide_eq_true_eq] at hws
        obtain ((((h | h) | h) | h) | h) | h := hws <;> subst h <;> decide
      simp only [scanArgsGo, matchArgAt, hks, Bool.false_eq_true, if_false]
      exact ih cs (fun d hd => hs d (by simp [hd]))

/-- C9: the attribute map has each key at most once, and the value bound to
a key is the one from the last (rightmost) occurrence among the scanned
`key=value` / flag matches. -/
theorem parse_arguments_last_wins_c9 (s : List Char) :
    ((parse_arguments s).map Prod.fst).Nodup ∧
    ∀ k, lookupA (parse_arguments s) k = lastValue (scanArgs s) k := by
  constructor
  · unfold parse_arguments
    split
    · simp
    · exact nodup_keys_pyFold _ [] (by simp)
  · intro k
    unfold parse_arguments
    split
    · rename_i hstrip
      have : scanArgs s = [] :=
        scanArgsGo_all_ws s.length s (pyStrip_eq_nil_all_ws hstrip)
      simp [this, lastValue, lookupA]
    · rw [pyDictOf, lookupA_pyFold]
      cases lastValue (scanArgs s) k <;> simp [lookupA]

end Spellbook

namespace Spellbook

/-- Rename the block names of the Opening tokens. -/
def renameTag (r : List Char → List Char) (t : Tag) : Tag :=
  if t.kind = .opening then { t with name := r t.name } else t

/-- The action of an Opening-name renaming on error events. -/
def renameEvent (r : List Char → List Char) : ErrEvent → ErrEvent
  | .orphanedClosing s e => .orphanedClosing s e
  | .unclosedBlock p n => .unclosedBlock p (r n)

theorem renameTag_kind (r : List Char → List Char) (t : Tag) :
    (renameTag r t).kind = t.kind := by
  by_cases h : t.kind = .opening <;> simp [renameTag, h]

theorem renameTag_closing (r : List Char → List Char) {t : Tag}
    (h : t.kind = .closing) : renameTag r t = t := by
  simp [renameTag, h]

theorem matchLoop_map_rename (r : List Char → List Char) :
    ∀ (ts stack : List Tag),
      matchLoop (ts.map (renameTag r)) (stack.map (renameTag r)) =
        ((matchLoop ts stack).1, (matchLoop ts stack).2.map (renameTag r)) := by
  intro ts
  induction ts with
  | nil => intro stack; simp [matchLoop]
  | cons t ts ih =>
    intro stack
    cases hk : t.kind with
    | opening =>
      have hk' : (renameTag r t).kind = .opening := by rw [renameTag_kind, hk]
      simp only [List.map_cons, matchLoop, hk, hk']
      exact ih (t :: stack)
    | closing =>
      have heq : renameTag r t = t := renameTag_closing r hk
      cases stack with
      | nil =>
        have h3 := ih []
        simp only [List.map_nil] at h3
        simp only [List.map_cons, List.map_nil, matchLoop, hk, heq, h3]
      | cons f st =>
        simp only [List.map_cons, matchLoop, hk, heq]
        exact ih st

theorem matchLoop_stack_opening :
    ∀ (ts stack : List Tag), (∀ t ∈ stack, t.kind = .opening) →
      ∀ t ∈ (matchLoop ts stack).2, t.kind = .opening := by
  intro ts
  induction ts with
  | nil => intro stack h; simpa [matchLoop] using h
  | cons t ts ih =>
    intro stack h
    cases hk : t.kind with
    | opening =>
      simp only [matchLoop, hk]
      refine ih (t :: stack) ?_
      intro u hu
      rcases List.mem_cons.1 hu with h1 | h1
      · subst h1; exact hk
      · exact h u h1
    | closing =>
      cases stack with
      | nil =>
        simp only [matchLoop, hk]
        have := ih [] (by simp)
        intro u hu
        exact this u (by
          rcases hm : matchLoop ts [] with ⟨es, s⟩
          simpa [hm] using hu)
      | cons f st =>
        simp only [matchLoop, hk]
        exact ih st (fun u hu => h u (List.mem_cons_of_mem f hu))

theorem matchLoop_fst_orphan :
    ∀ (ts stack : List Tag) (e : ErrEvent), e ∈ (matchLoop ts stack).1 →
      ∃ a b, e = .orphanedClosing a b := by
  intro ts
  induction ts with
  | nil => intro stack e he; simp [matchLoop] at he
  | cons t ts ih =>
    intro stack e he
    cases hk : t.kind with
    | opening =>
      simp only [matchLoop, hk] at he
      exact ih (t :: stack) e he
    | closing =>
      cases stack with
      | nil =>
        simp only [matchLoop, hk] at he
        rcases hm : matchLoop ts [] with ⟨es, s⟩
        rw [hm] at he
        simp only [List.mem_cons] at he
        rcases he with he | he
        · exact ⟨t.start, t.stop, he⟩
        · exact ih [] e (by rw [hm]; exact he)
      | cons f st =>
        simp only [matchLoop, hk] at he
        exact ih st e he

/-- C3: a Closing token consumed with a non-empty stack pops exactly the
topmost frame, with no name comparison; consequently which Opening each
Closing matches, and which Openings are reported unclosed, is invariant
under renaming the names of the Opening tokens. -/
theorem nameless_lifo_matching_c3 :
    (∀ (t : Tag) (ts : List Tag) (f : Tag) (st : List Tag),
        t.kind = .closing → matchLoop (t :: ts) (f :: st) = matchLoop ts st) ∧
    (∀ (ts : List Tag) (r : List Char → List Char),
        eventsOfTags (ts.map (renameTag r)) =
          (eventsOfTags ts).map (renameEvent r)) := by
  constructor
  · intro t ts f st ht
    simp [matchLoop, ht]
  · intro ts r
    unfold eventsOfTags
    have h1 : (List.map (renameTag r) ts, ([] : List Tag)) =
        (ts.map (renameTag r), ([] : List Tag).map (renameTag r)) := by simp
    rcases hm : matchLoop ts [] with ⟨orphans, stack⟩
    have h2 := matchLoop_map_rename r ts []
    rw [hm] at h2
    simp only [List.map_nil] at h2
    rw [h2]
    simp only [List.map_append]
    congr 1
    · -- orphan events are unchanged by renaming
      have horph : ∀ e ∈ orphans, renameEvent r e = e := by
        intro e he
        obtain ⟨a, b, rfl⟩ := matchLoop_fst_orphan ts [] e (by rw [hm]; exact he)
        rfl
      have hmap : List.map (renameEvent r) orphans = orphans := by
        calc List.map (renameEvent r) orphans
            = List.map id orphans := List.map_congr_left (fun e he => horph e he)
          _ = orphans := List.map_id orphans
      exact hmap.symm
    · -- unclosed events carry the renamed names
      have hop : ∀ t ∈ stack, t.kind = .opening := by
        have := matchLoop_stack_opening ts [] (by simp)
        rw [hm] at this
        exact this
      rw [← List.map_reverse, List.map_map, List.map_map]
      apply List.map_congr_left
      intro t ht
      have hk := hop t (List.mem_reverse.1 ht)
      simp [Function.comp, renameTag, renameEvent, hk]

end Spellbook

namespace Spellbook

theorem nameless_lifo_matching_c3_witness :
    matchLoop [⟨.closing, 10, 14, []⟩] [⟨.opening, 0, 7, "alert".data⟩] =
      matchLoop [] [] :=
  nameless_lifo_matching_c3.1 ⟨.closing, 10, 14, []⟩ [] ⟨.opening, 0, 7, "alert".data⟩ [] rfl

/-- C10 counterexample: a block with no attached template whose content
processing faults (the markdown collaborator raises) propagates the fault:
`BaseSpellBlock.render` calls `process_content` outside any handler on the
no-template path, so it is not total. -/
theorem block_render_propagates_c10_counterexample :
    block_render (fun _ => .error (.exc "boom".data)) ⟨"x".data, none, []⟩ =
      .error (.exc "boom".data) := by rfl

/-- C10 amended: when a template is attached, `BaseSpellBlock.render` is
total — any fault from context building or template rendering is caught and
render returns the literal error-comment fragment; when no template is
attached, render returns the processed content and a fault from content
processing propagates uncaught. -/
theorem block_render_c10_amended (md : List Char → PyRes) (b : PyBlock) :
    (∀ t, b.template = some t → ∃ r, block_render md b = .ok r) ∧
    (∀ t e, b.template = some t →
        (do let ctx ← block_get_context md b
            t ctx : PyRes) = .error e →
        block_render md b =
          .ok ("<!-- Error rendering block: ".data ++ excMsg e ++ " -->".data)) ∧
    (b.template = none → block_render md b = block_process_content md b) := by
  refine ⟨?_, ?_, ?_⟩
  · intro t ht
    cases h : (do let ctx ← block_get_context md b
                  t ctx : PyRes) with
    | ok r => exact ⟨r, by rw [block_render, ht]; simp only [h]⟩
    | error e =>
      exact ⟨"<!-- Error rendering block: ".data ++ excMsg e ++ " -->".data,
        by rw [block_render, ht]; simp only [h]⟩
  · intro t e ht h
    rw [block_render, ht]
    simp only [h]
  · intro ht
    rw [block_render, ht]

theorem block_render_c10_amended_witness :
    block_render (fun s => .ok s)
        ⟨"x".data, some (fun _ => .error (.exc "tboom".data)), []⟩ =
      .ok ("<!-- Error rendering block: ".data ++ "tboom".data ++ " -->".data) :=
  (block_render_c10_amended (fun s => .ok s)
      ⟨"x".data, some (fun _ => .error (.exc "tboom".data)), []⟩).2.1
    (fun _ => .error (.exc "tboom".data)) (.exc "tboom".data) rfl rfl

end Spellbook

namespace Spellbook

/-- The Error-Presenter contract: `_render_error` always succeeds. -/
def PresenterOk (c : Collab β) : Prop :=
  ∀ et bn ms sg ct : List Char, ∃ r, render_error c et bn ms sg ct = .ok r

theorem render_spellblock_ok (c : Collab β) (Hp : PresenterOk c)
    (rec : List Char → PyRes) (n a ct : List Char) (sc : Bool) :
    ∃ r, render_spellblock c rec n a ct sc = .ok r := by
  rw [render_spellblock]
  cases h : render_spellblock_attempt c rec n a ct sc with
  | ok r => exact ⟨r, rfl⟩
  | error e =>
    obtain ⟨r, hr⟩ := Hp "render_exception".data n [] [] (excMsg e)
    exact ⟨r, hr⟩

theorem mapM_ok_of_all_ok {α γ : Type} (f : α → Except PyExc γ) :
    ∀ l : List α, (∀ x ∈ l, ∃ y, f x = .ok y) → ∃ ys, l.mapM f = .ok ys := by
  intro l
  induction l with
  | nil => intro _; exact ⟨[], rfl⟩
  | cons x xs ih =>
    intro h
    obtain ⟨y, hy⟩ := h x (by simp)
    obtain ⟨ys, hys⟩ := ih (fun a ha => h a (by simp [ha]))
    exact ⟨y :: ys, by rw [List.mapM_cons, hy, hys]; rfl⟩

theorem renderEventError_ok (c : Collab β) (Hp : PresenterOk c) (ev : ErrEvent) :
    ∃ r, renderEventError c ev = .ok r := by
  cases ev with
  | orphanedClosing s e => exact Hp _ _ _ _ _
  | unclosedBlock p n => exact Hp _ _ _ _ _

theorem bind_ok_py {a g : Type} (x : a) (f : a → Except PyExc g) :
    (do let y ← (Except.ok x : Except PyExc a); f y) = f x := rfl

theorem detect_malformed_blocks_ok (c : Collab β) (Hp : PresenterOk c)
    (text : List Char) : ∃ r, detect_malformed_blocks c text = .ok r := by
  rw [detect_malformed_blocks]
  obtain ⟨es, hes⟩ := mapM_ok_of_all_ok
    (fun ev => do
      let r ← renderEventError c ev
      pure (editOfEvent ev r))
    (detectEvents text)
    (by
      intro ev _
      obtain ⟨r, hr⟩ := renderEventError_ok c Hp ev
      exact ⟨editOfEvent ev r, by simp only [hr, bind_ok_py]; rfl⟩)
  exact ⟨applyEdits es text, by rw [hes]; rfl⟩

theorem process_self_closing_blocks_ok (c : Collab β) (Hp : PresenterOk c)
    (rec : List Char → PyRes) :
    ∀ (fuel : Nat) (t : List Char),
      ∃ r, process_self_closing_blocks c rec fuel t = .ok r := by
  intro fuel
  induction fuel with
  | zero => intro t; exact ⟨t, rfl⟩
  | succ fuel ih =>
    intro t
    cases t with
    | nil => exact ⟨[], rfl⟩
    | cons x xs =>
      rw [process_self_closing_blocks]
      cases hm : matchSelfCloseAt (x :: xs) with
      | some m =>
        obtain ⟨len, name, attrs⟩ := m
        obtain ⟨r, hr⟩ := render_spellblock_ok c Hp rec name attrs [] true
        obtain ⟨tl, htl⟩ := ih (xs.drop (len - 1))
        exact ⟨r ++ tl, by simp only [hr, htl, bind_ok_py]; rfl⟩
      | none =>
        obtain ⟨tl, htl⟩ := ih xs
        exact ⟨x :: tl, by simp only [htl, bind_ok_py]; rfl⟩

theorem process_content_blocks_ok (c : Collab β) (Hp : PresenterOk c)
    (rec : List Char → PyRes) :
    ∀ (fuel : Nat) (t : List Char),
      ∃ r, process_content_blocks c rec fuel t = .ok r := by
  intro fuel
  induction fuel with
  | zero => intro t; exact ⟨t, rfl⟩
  | succ fuel ih =>
    intro t
    cases t with
    | nil => exact ⟨[], rfl⟩
    | cons x xs =>
      rw [process_content_blocks]
      cases hm : matchOpenAt (x :: xs) with
      | some m =>
        obtain ⟨len, name, attrs⟩ := m
        cases hf : findFirstClose ((x :: xs).drop len) with
        | some p =>
          obtain ⟨content, rest⟩ := p
          obtain ⟨r, hr⟩ := render_spellblock_ok c Hp rec name attrs content false
          obtain ⟨tl, htl⟩ := ih rest
          exact ⟨r ++ tl, by simp only [hf, hr, htl, bind_ok_py]; rfl⟩
        | none => exact ⟨x :: xs, by simp only [hf]⟩
      | none =>
        obtain ⟨tl, htl⟩ := ih xs
        exact ⟨x :: tl, by simp only [htl, bind_ok_py]; rfl⟩

theorem process_spellblocks_ok (c : Collab β) (Hp : PresenterOk c)
    (d : Nat) (t : List Char) :
    ∃ r, process_spellblocks c (d + 1) t = .ok r := by
  rw [process_spellblocks]
  obtain ⟨t1, h1⟩ := detect_malformed_blocks_ok c Hp t
  obtain ⟨t2, h2⟩ := process_self_closing_blocks_ok c Hp
    (process_spellblocks c d) (t1.length + 1) t1
  obtain ⟨t3, h3⟩ := process_content_blocks_ok c Hp
    (process_spellblocks c d) (t2.length + 1) t2
  exact ⟨t3, by rw [h1, bind_ok_py, h2, bind_ok_py, h3]⟩

/-- C8: for every input document and every behavior of the collaborators,
`render` either returns a string or fails with exactly one top-level
`ParserError`; and when the error presenter and the markdown transform
themselves behave (the in-document blocks alone being malformed or
failing), `render` never raises at all. -/
theorem render_exception_discipline_c8 (c : Collab β) (d : Nat) (text : List Char) :
    ((∃ h, render c d text = .ok h) ∨
     (∃ m, render c d text = .error (.parserError m))) ∧
    (PresenterOk c → (∀ t, ∃ h, c.markdown t = .ok h) → 1 ≤ d →
      ∃ h, render c d text = .ok h) := by
  constructor
  · rw [render]
    cases hb : render_body c d text with
    | ok h => exact Or.inl ⟨h, rfl⟩
    | error e =>
      exact Or.inr ⟨"Failed to parse markdown: ".data ++ excMsg e, rfl⟩
  · intro Hp Hmd hd
    cases d with
    | zero => omega
    | succ d =>
      obtain ⟨ps, hps⟩ := mapM_ok_of_all_ok
        (fun seg : List Char × Bool =>
          if seg.2 then pure seg.1 else process_spellblocks c (d + 1) seg.1)
        (split_by_code_fences text)
        (by
          intro seg _
          by_cases hs : seg.2
          · exact ⟨seg.1, by simp [hs]; rfl⟩
          · obtain ⟨r, hr⟩ := process_spellblocks_ok c Hp d seg.1
            exact ⟨r, by simp [hs, hr]⟩)
      obtain ⟨h, hh⟩ := Hmd ps.flatten
      refine ⟨h, ?_⟩
      rw [render, render_body, hps, bind_ok_py, hh]

end Spellbook

namespace Spellbook

/-- A well-behaved concrete collaborator: every block resolves to a unit
object rendering to a fixed fragment, and the markdown transform is the
identity. -/
def cConst : Collab Unit :=
  ⟨fun _ _ _ => .ok (some ()), fun _ => .ok "[X]".data, fun t => .ok t⟩

theorem render_exception_discipline_c8_witness :
    ∃ h, render cConst 1 "\x7b~~\x7d orphan".data = .ok h :=
  (render_exception_discipline_c8 cConst 1 "\x7b~~\x7d orphan".data).2
    (fun _ _ _ _ _ => ⟨nl2 ++ pyStrip "[X]".data ++ nl2, rfl⟩)
    (fun t => ⟨t, rfl⟩) (Nat.le_refl 1)

end Spellbook

namespace Spellbook

theorem takeWhile_append_all {α : Type} (p : α → Bool) (a b : List α)
    (h : ∀ c ∈ a, p c = true) : (a ++ b).takeWhile p = a ++ b.takeWhile p := by
  induction a with
  | nil => simp
  | cons x xs ih =>
    have hx : p x = true := h x (by simp)
    simp [List.takeWhile_cons, hx, ih (fun c hc => h c (by simp [hc]))]

theorem dropWhile_append_all {α : Type} (p : α → Bool) (a b : List α)
    (h : ∀ c ∈ a, p c = true) : (a ++ b).dropWhile p = b.dropWhile p := by
  induction a with
  | nil => simp
  | cons x xs ih =>
    simp only [List.cons_append, List.dropWhile_cons, h x (by simp)]
    exact ih (fun c hc => h c (by simp [hc]))

theorem takeWhile_eq_of_head {α : Type} (p : α → Bool) (a b : List α)
    (h : ∀ c ∈ a, p c = true) (hb : ∀ b0, b.head? = some b0 → p b0 = false) :
    (a ++ b).takeWhile p = a := by
  rw [takeWhile_append_all p a b h]
  cases b with
  | nil => simp
  | cons b0 bs => simp [List.takeWhile_cons, hb b0 rfl]

theorem dropWhile_eq_of_head {α : Type} (p : α → Bool) (a b : List α)
    (h : ∀ c ∈ a, p c = true) (hb : ∀ b0, b.head? = some b0 → p b0 = false) :
    (a ++ b).dropWhile p = b := by
  rw [dropWhile_append_all p a b h]
  cases b with
  | nil => simp
  | cons b0 bs => simp [List.dropWhile_cons, hb b0 rfl]

theorem ws_not_word {c : Char} (h : isWS c = true) : isWord c = false := by
  simp only [isWS, Bool.or_eq_true, decide_eq_true_eq] at h
  obtain ((((h | h) | h) | h) | h) | h := h <;> subst h <;> decide

theorem ws_notTilde {c : Char} (h : isWS c = true) : notTilde c = true := by
  simp only [isWS, Bool.or_eq_true, decide_eq_true_eq] at h
  obtain ((((h | h) | h) | h) | h) | h := h <;> subst h <;> decide

theorem word_not_ws {c : Char} (h : isWord c = true) : isWS c = false := by
  cases hw : isWS c with
  | false => rfl
  | true => rw [ws_not_word hw] at h; exact absurd h (by simp)

theorem neTilde_notTilde {c : Char} (h : c ≠ '~') : notTilde c = true := by
  simp [notTilde, h]

theorem dropTrailingWS_append_ws (attrs ws3 : List Char)
    (hws3 : ∀ c ∈ ws3, isWS c = true)
    (hal : ∀ aL, attrs.getLast? = some aL → isWS aL = false) :
    dropTrailingWS (attrs ++ ws3) = attrs := by
  unfold dropTrailingWS
  rw [List.reverse_append,
    dropWhile_append_all isWS ws3.reverse attrs.reverse
      (fun c hc => hws3 c (List.mem_reverse.1 hc))]
  cases ha : attrs.reverse with
  | nil =>
    have hnil : attrs = [] := by simpa using congrArg List.reverse ha
    subst hnil
    simp
  | cons a0 as =>
    have hlast : attrs.getLast? = some a0 := by
      rw [← List.head?_reverse, ha]; rfl
    have hrev : attrs = (a0 :: as).reverse := by
      have h2 := congrArg List.reverse ha
      rwa [List.reverse_reverse] at h2
    rw [List.dropWhile_cons, hal a0 hlast]
    simp only [Bool.false_eq_true, if_false]
    exact hrev.symm

theorem openCore_mid_notTilde {rest ws1 name ws2 mid r4 : List Char}
    (h : openCore rest = some (ws1, name, ws2, mid, r4)) :
    ∀ c ∈ mid, notTilde c = true := by
  simp only [openCore] at h
  split at h
  · exact absurd h (by simp)
  · simp only [Option.some.injEq, Prod.mk.injEq] at h
    obtain ⟨-, -, -, h4, -⟩ := h
    intro c hc
    rw [← h4] at hc
    exact List.mem_takeWhile_imp hc

theorem mem_dropTrailingWS {s : List Char} {c : Char}
    (h : c ∈ dropTrailingWS s) : c ∈ s := by
  unfold dropTrailingWS at h
  have h1 : c ∈ s.reverse.dropWhile isWS := List.mem_reverse.1 h
  exact List.mem_reverse.1 ((List.dropWhile_sublist isWS).subset h1)

/-- C7 amended: the tokenizer's opening-tag pattern.  Soundness: a
recognized attribute substring never contains `~`.  Completeness: every
string `\x7b~ ws1 name ws2 attrs ws3 ~\x7d suffix` whose attribute
substring contains no `~` (with the greedy-boundary side conditions of the
regex) is recognized as one opening tag capturing that name and attribute
substring.  In particular an attribute substring containing a bare `~`, as
in the claim's example, is never recognized (counterexample theorem). -/
theorem opening_tag_grammar_c7_amended :
    (∀ (s : List Char) (len : Nat) (name attrs : List Char),
      matchOpenAt s = some (len, name, attrs) → ∀ ch ∈ attrs, ch ≠ '~') ∧
    (∀ (ws1 name ws2 attrs ws3 suffix : List Char),
      (∀ c ∈ ws1, isWS c = true) → (∀ c ∈ ws2, isWS c = true) →
      (∀ c ∈ ws3, isWS c = true) →
      name ≠ [] → (∀ c ∈ name, isWord c = true) →
      (∀ ch ∈ attrs, ch ≠ '~') →
      (∀ a0, attrs.head? = some a0 →
        isWS a0 = false ∧ (ws2 = [] → isWord a0 = false)) →
      (∀ aL, attrs.getLast? = some aL → isWS aL = false) →
      (attrs = [] → ws3 = []) →
      matchOpenAt ('{' :: '~' ::
          (ws1 ++ name ++ ws2 ++ attrs ++ ws3 ++ ('~' :: '}' :: suffix))) =
        some (2 + ws1.length + name.length + ws2.length +
                (attrs.length + ws3.length) + 2,
              name, attrs)) := by
  constructor
  · intro s len name attrs hm ch hch
    match s, hm with
    | c1 :: c2 :: rest, hm =>
      rw [matchOpenAt] at hm
      split at hm
      · split at hm
        · exact absurd hm (by simp)
        · rename_i ws1 nm ws2 mid r4 ho
          split at hm
          · simp only [Option.some.injEq, Prod.mk.injEq] at hm
            obtain ⟨-, -, hattrs⟩ := hm
            subst hattrs
            have hmem : ch ∈ mid := mem_dropTrailingWS hch
            have hnt := openCore_mid_notTilde ho ch hmem
            simpa [notTilde] using hnt
          · exact absurd hm (by simp)
      · exact absurd hm (by simp)
  · intro ws1 name ws2 attrs ws3 suffix hws1 hws2 hws3 hne hword hattrs hah hal hemp
    obtain ⟨n0, ns, rfl⟩ := List.exists_cons_of_ne_nil hne
    -- abbreviations for the suffix pieces
    set tail2 : List Char := '~' :: '}' :: suffix with htail2
    have htailTilde : tail2.head? = some '~' := rfl
    -- head of ws2 ++ attrs ++ ws3 ++ tail2 is not a word character
    have hR2head : ∀ b0, (ws2 ++ (attrs ++ (ws3 ++ tail2))).head? = some b0 →
        isWord b0 = false := by
      cases ws2 with
      | cons w wr =>
        intro b0 hb
        simp only [List.cons_append, List.head?_cons, Option.some.injEq] at hb
        subst hb
        exact ws_not_word (hws2 w (by simp))
      | nil =>
        cases attrs with
        | cons a0 as =>
          intro b0 hb
          simp only [List.nil_append, List.cons_append, List.head?_cons,
            Option.some.injEq] at hb
          subst hb
          exact (hah a0 rfl).2 rfl
        | nil =>
          have h3 : ws3 = [] := hemp rfl
          subst h3
          intro b0 hb
          simp only [List.nil_append, htail2, List.head?_cons,
            Option.some.injEq] at hb
          subst hb
          decide
    -- head of attrs ++ ws3 ++ tail2 is not whitespace
    have hR3head : ∀ b0, (attrs ++ (ws3 ++ tail2)).head? = some b0 →
        isWS b0 = false := by
      cases attrs with
      | cons a0 as =>
        intro b0 hb
        simp only [List.cons_append, List.head?_cons, Option.some.injEq] at hb
        subst hb
        exact (hah a0 rfl).1
      | nil =>
        have h3 : ws3 = [] := hemp rfl
        subst h3
        intro b0 hb
        simp only [List.nil_append, htail2, List.head?_cons,
          Option.some.injEq] at hb
        subst hb
        decide
    have hnameall : ∀ c ∈ n0 :: ns, isWord c = true := hword
    have hnamehead : ∀ b0,
        ((n0 :: ns) ++ (ws2 ++ (attrs ++ (ws3 ++ tail2)))).head? = some b0 →
        isWS b0 = false := by
      intro b0 hb
      simp only [List.cons_append, List.head?_cons, Option.some.injEq] at hb
      subst hb
      exact word_not_ws (hword n0 (by simp))
    -- the four scanner stages
    have stA : (ws1 ++ ((n0 :: ns) ++ (ws2 ++ (attrs ++ (ws3 ++ tail2))))).takeWhile isWS
        = ws1 := takeWhile_eq_of_head isWS _ _ hws1 hnamehead
    have stB : (ws1 ++ ((n0 :: ns) ++ (ws2 ++ (attrs ++ (ws3 ++ tail2))))).dropWhile isWS
        = (n0 :: ns) ++ (ws2 ++ (attrs ++ (ws3 ++ tail2))) :=
      dropWhile_eq_of_head isWS _ _ hws1 hnamehead
    have stC : ((n0 :: ns) ++ (ws2 ++ (attrs ++ (ws3 ++ tail2)))).takeWhile isWord
        = n0 :: ns := takeWhile_eq_of_head isWord _ _ hnameall hR2head
    have stD : ((n0 :: ns) ++ (ws2 ++ (attrs ++ (ws3 ++ tail2)))).dropWhile isWord
        = ws2 ++ (attrs ++ (ws3 ++ tail2)) :=
      dropWhile_eq_of_head isWord _ _ hnameall hR2head
    have stE : (ws2 ++ (attrs ++ (ws3 ++ tail2))).takeWhile isWS = ws2 :=
      takeWhile_eq_of_head isWS _ _ hws2 hR3head
    have stF : (ws2 ++ (attrs ++ (ws3 ++ tail2))).dropWhile isWS
        = attrs ++ (ws3 ++ tail2) := dropWhile_eq_of_head isWS _ _ hws2 hR3head
    have stG : (attrs ++ (ws3 ++ tail2)).takeWhile notTilde = attrs ++ ws3 := by
      rw [takeWhile_append_all notTilde attrs _
        (fun c hc => neTilde_notTilde (hattrs c hc))]
      rw [takeWhile_append_all notTilde ws3 _
        (fun c hc => ws_notTilde (hws3 c hc))]
      have : tail2.takeWhile notTilde = [] := by
        rw [htail2]
        simp [List.takeWhile_cons, notTilde]
      rw [this, List.append_nil]
    have stH : (attrs ++ (ws3 ++ tail2)).dropWhile notTilde = tail2 := by
      rw [dropWhile_append_all notTilde attrs _
        (fun c hc => neTilde_notTilde (hattrs c hc))]
      rw [dropWhile_append_all notTilde ws3 _
        (fun c hc => ws_notTilde (hws3 c hc))]
      rw [htail2]
      simp [List.dropWhile_cons, notTilde]
    have stI : openCore (ws1 ++ ((n0 :: ns) ++ (ws2 ++ (attrs ++ (ws3 ++ tail2)))))
        = some (ws1, n0 :: ns, ws2, attrs ++ ws3, tail2) := by
      simp only [openCore, stA, stB, stC, stD, stE, stF, stG, stH]
      simp
    rw [matchOpenAt]
    rw [if_pos ⟨rfl, rfl⟩]
    have harr : ws1 ++ (n0 :: ns) ++ ws2 ++ attrs ++ ws3 ++ ('~' :: '}' :: suffix)
        = ws1 ++ ((n0 :: ns) ++ (ws2 ++ (attrs ++ (ws3 ++ tail2)))) := by
      simp [htail2, List.append_assoc]
    rw [harr]
    simp only [stI]
    have ht2 : tail2.take 2 = ['~', '}'] := by rw [htail2]; rfl
    rw [if_pos ht2, dropTrailingWS_append_ws attrs ws3 hws3 hal]
    simp [List.length_append]

end Spellbook

namespace Spellbook

/-- C7 counterexample: the claim's example `\x7b~ alert title="a~b" ~\x7d`
(attribute substring containing a bare `~`) is not recognized as an opening
tag at all — neither by a match at position 0 nor anywhere in the tokenizer
scan. -/
theorem opening_attrs_tilde_c7_counterexample :
    matchOpenAt "\x7b~ alert title=\"a~b\" ~\x7d".data = none ∧
    scanOpens 0 "\x7b~ alert title=\"a~b\" ~\x7d".data = [] ∧
    collectTags "\x7b~ alert title=\"a~b\" ~\x7d".data = [] := by decide

theorem opening_tag_grammar_c7_amended_witness :
    matchOpenAt ('{' :: '~' ::
        (" ".data ++ "alert".data ++ " ".data ++ "title=\"ab\"".data ++
          " ".data ++ ('~' :: '}' :: "x".data))) =
      some (22, "alert".data, "title=\"ab\"".data) := by
  have h := opening_tag_grammar_c7_amended.2 " ".data "alert".data " ".data
    "title=\"ab\"".data " ".data "x".data
    (by decide) (by decide) (by decide) (by decide) (by decide) (by decide)
    (by decide) (by decide) (by decide)
  simpa using h

end Spellbook

namespace Spellbook

/-- Modelled from the spec: the structural LIFO pairing of Opening and
Closing tokens (each Closing matches the most recently pushed unmatched
Opening).  Used only to compare the spec's notion of a block's content span
with what the code's lazy regex actually extracts. -/
def lifoPairs : List Tag → List Tag → List (Tag × Tag)
  | [], _ => []
  | t :: ts, stack =>
    match t.kind with
    | .opening => lifoPairs ts (t :: stack)
    | .closing =>
      match stack with
      | [] => lifoPairs ts []
      | f :: st => (f, t) :: lifoPairs ts st

/-- Whether the closing literal occurs anywhere in `s`. -/
def hasCloseLit : List Char → Bool
  | [] => false
  | c :: cs => decide ((c :: cs).take 4 = closeLit) || hasCloseLit cs

/-- The spec's nested example document. -/
def nestedDoc : List Char :=
  "\x7b~ card ~\x7douter \x7b~ alert ~\x7dinner\x7b~~\x7d still outer\x7b~~\x7d".data

/-- C1 counterexample: in the nested example the document is structurally
well formed and the LIFO matching pairs `card` with the second closing tag
(start 48), but the content group of the first `SPELLBLOCK_PATTERN` match
runs only to the textually first closing tag: `card` is handed
`outer \x7b~ alert ~\x7dinner`, not the substring up to its LIFO-matched
closer. -/
theorem content_span_c1_counterexample :
    detectEvents nestedDoc = [] ∧
    matchOpenAt nestedDoc = some (10, "card".data, []) ∧
    findFirstClose (nestedDoc.drop 10) =
      some ("outer \x7b~ alert ~\x7dinner".data, " still outer\x7b~~\x7d".data) ∧
    (lifoPairs (collectTags nestedDoc) []).map
        (fun p => (p.1.name, p.2.start)) =
      [("alert".data, 32), ("card".data, 48)] ∧
    "outer \x7b~ alert ~\x7dinner".data ≠ ((nestedDoc.take 48).drop 10) := by
  decide

/-- The probing collaborator: resolving a block returns exactly the content
the expander supplied, so the rendered result exposes what the block
received. -/
def probeCollab : Collab (List Char) :=
  ⟨fun _ ct _ => .ok (some ct), fun ct => .ok ct, fun t => .ok t⟩

/-- C1 amended: for every scannable segment, the content of a matched
content-wrapping block is the substring strictly between the Opening tag's
end and the start of the textually first closing literal after it (the lazy
`(.*?)` group), not the LIFO-matched closer; that content is passed through
the recursive segment pipeline (`rec`) before the block is resolved. -/
theorem content_span_c1_amended :
    (∀ (s content rest : List Char), findFirstClose s = some (content, rest) →
      s = content ++ closeLit ++ rest ∧ hasCloseLit content = false) ∧
    (∀ (rec : List Char → PyRes) (name attrs content c2 : List Char),
      content ≠ [] → rec content = .ok c2 →
      render_spellblock probeCollab rec name attrs content false =
        if pyStrip c2 = [] then .ok []
        else .ok (nl2 ++ pyStrip c2 ++ nl2)) := by
  constructor
  · intro s
    induction s with
    | nil => intro content rest h; exact absurd h (by simp [findFirstClose])
    | cons c cs ih =>
      intro content rest h
      rw [findFirstClose] at h
      split at h
      · rename_i hcl
        simp only [Option.some.injEq, Prod.mk.injEq] at h
        obtain ⟨h1, h2⟩ := h
        subst h1; subst h2
        constructor
        · have := List.take_append_drop 4 (c :: cs)
          rw [hcl] at this
          simpa using this.symm
        · rfl
      · rename_i hcl
        cases hf : findFirstClose cs with
        | none => rw [hf] at h; exact absurd h (by simp)
        | some p =>
          obtain ⟨a, b⟩ := p
          rw [hf] at h
          simp only [Option.some.injEq, Prod.mk.injEq] at h
          obtain ⟨h1, h2⟩ := h
          subst h2
          obtain ⟨hd, hnc⟩ := ih a b hf
          subst h1
          constructor
          · rw [hd]; simp
          · rw [hasCloseLit]
            have hne : ¬ (c :: a).take 4 = closeLit := by
              intro habs
              have hlen : 4 ≤ (c :: a).length := by
                have hl := congrArg List.length habs
                simp only [List.length_take, closeLit, List.length_cons] at hl
                simp only [List.length_cons]
                omega
              apply hcl
              rw [hd]
              have hsplit : c :: (a ++ closeLit ++ b) = (c :: a) ++ (closeLit ++ b) := by
                simp [List.append_assoc]
              rw [hsplit, List.take_append_of_le_length hlen]
              exact habs
            simp only [hnc, Bool.or_false]
            exact decide_eq_false hne
  · intro rec name attrs content c2 hc hrec
    rw [render_spellblock, render_spellblock_attempt]
    have hie : content.isEmpty = false := by
      cases content with
      | nil => exact absurd rfl hc
      | cons x xs => rfl
    simp only [hie, Bool.false_or, Bool.or_self, if_false]
    rw [hrec, bind_ok_py]
    show (match (if pyStrip c2 = [] then (pure [] : PyRes)
          else pure (nl2 ++ pyStrip c2 ++ nl2)) with
      | .ok r => Except.ok r
      | .error e =>
        render_error probeCollab "render_exception".data name [] [] (excMsg e)) =
      if pyStrip c2 = [] then Except.ok [] else Except.ok (nl2 ++ pyStrip c2 ++ nl2)
    by_cases hs : pyStrip c2 = [] <;> simp [hs] <;> rfl

end Spellbook

namespace Spellbook

theorem content_span_c1_amended_witness :
    render_spellblock probeCollab (fun t => .ok t) "card".data [] "hi".data false =
      .ok (nl2 ++ "hi".data ++ nl2) := by
  have h := content_span_c1_amended.2 (fun t => .ok t) "card".data [] "hi".data
    "hi".data (by decide) rfl
  rw [h, show pyStrip "hi".data = "hi".data from by decide, if_neg (by decide)]

/-- Projection: is this event an orphaned-closing event? -/
def isOrphan : ErrEvent → Bool
  | .orphanedClosing _ _ => true
  | .unclosedBlock _ _ => false

/-- When the presenter is the pure function `R`, `_detect_malformed_blocks`
computes exactly the pure edit application. -/
theorem detect_eq_applyEventEdits (c : Collab β) (R : ErrEvent → List Char)
    (text : List Char) (hR : ∀ ev, renderEventError c ev = .ok (R ev)) :
    detect_malformed_blocks c text = .ok (applyEventEdits R text) := by
  rw [detect_malformed_blocks, applyEventEdits]
  have hmap : ∀ l : List ErrEvent,
      l.mapM (fun ev => do
        let r ← renderEventError c ev
        pure (editOfEvent ev r)) =
      .ok (l.map (fun ev => editOfEvent ev (R ev))) := by
    intro l
    induction l with
    | nil => rfl
    | cons e es ih =>
      rw [List.mapM_cons, hR e, ih]
      rfl
  rw [hmap, bind_ok_py]
  rfl

theorem insertDescBy_front {α : Type} (key : α → Nat) (x : α) (acc : List α)
    (h : ∀ a ∈ acc, key a < key x) : insertDescBy key x acc = x :: acc := by
  cases acc with
  | nil => rfl
  | cons y ys =>
    have : ¬ key x ≤ key y := by
      have := h y (by simp)
      omega
    simp [insertDescBy, this]

theorem foldl_insertDesc_asc {α : Type} (key : α → Nat) :
    ∀ (l acc : List α), List.Pairwise (fun a b => key a < key b) l →
      (∀ a ∈ acc, ∀ b ∈ l, key a < key b) →
      l.foldl (fun acc x => insertDescBy key x acc) acc = l.reverse ++ acc := by
  intro l
  induction l with
  | nil => intro acc _ _; simp
  | cons x xs ih =>
    intro acc hp hacc
    rw [List.foldl_cons,
      insertDescBy_front key x acc (fun a ha => hacc a ha x (by simp))]
    rw [ih (x :: acc) (List.Pairwise.of_cons hp) ?_]
    · simp
    · intro a ha b hb
      rcases List.mem_cons.1 ha with h1 | h1
      · subst h1
        exact (List.pairwise_cons.1 hp).1 b hb
      · exact hacc a h1 b (by simp [hb])

theorem sortDescBy_of_asc {α : Type} (key : α → Nat) (l : List α)
    (h : List.Pairwise (fun a b => key a < key b) l) :
    sortDescBy key l = l.reverse := by
  rw [sortDescBy, foldl_insertDesc_asc key l [] h (by simp)]
  simp

/-- Applying a pending edit whose span lies entirely at offsets `≥ |A|`
leaves the prefix `A` intact. -/
theorem splice_append (A B r : List Char) (s e : Nat)
    (hs : A.length ≤ s) (he : A.length ≤ e) :
    (A ++ B).take s ++ r ++ (A ++ B).drop e =
      A ++ (B.take (s - A.length) ++ r ++ B.drop (e - A.length)) := by
  rw [List.take_append_eq_append_take, List.drop_append_eq_append_drop,
    List.take_of_length_le hs, List.drop_of_length_le he]
  simp [List.append_assoc]

/-- Folding pure insertions at offsets `≥ |P|` over `P ++ B` keeps `P`
intact and only interleaves new material into `B`. -/
theorem foldl_insertions_high (P : List Char) :
    ∀ (edits : List (Nat × Nat × List Char)) (B : List Char),
      (∀ ed ∈ edits, P.length ≤ ed.1 ∧ ed.2.1 = ed.1) →
      ∃ B2,
        edits.foldl (fun acc ed => acc.take ed.1 ++ ed.2.2 ++ acc.drop ed.2.1)
          (P ++ B) = P ++ B2 ∧ List.Sublist B B2 := by
  intro edits
  induction edits with
  | nil => intro B _; exact ⟨B, rfl, List.Sublist.refl B⟩
  | cons ed rest ih =>
    intro B h
    obtain ⟨hs, hins⟩ := h ed (by simp)
    rw [List.foldl_cons, hins, splice_append P B ed.2.2 ed.1 ed.1 hs hs]
    obtain ⟨B2, hB2, hsub⟩ := ih
      (B.take (ed.1 - P.length) ++ ed.2.2 ++ B.drop (ed.1 - P.length))
      (fun e he => h e (by simp [he]))
    refine ⟨B2, hB2, ?_⟩
    refine List.Sublist.trans ?_ hsub
    have h1 : List.Sublist B
        (B.take (ed.1 - P.length) ++ (ed.2.2 ++ B.drop (ed.1 - P.length))) := by
      conv_lhs => rw [← List.take_append_drop (ed.1 - P.length) B]
      exact (List.sublist_append_right ed.2.2 (B.drop (ed.1 - P.length))).append_left
        (B.take (ed.1 - P.length))
    have h2 : B.take (ed.1 - P.length) ++ (ed.2.2 ++ B.drop (ed.1 - P.length)) =
        B.take (ed.1 - P.length) ++ ed.2.2 ++ B.drop (ed.1 - P.length) := by
      rw [List.append_assoc]
    exact h2 ▸ h1

end Spellbook

namespace Spellbook

theorem matchLoop_all_open :
    ∀ (ts stack : List Tag), (∀ t ∈ ts, t.kind = .opening) →
      matchLoop ts stack = ([], ts.reverse ++ stack) := by
  intro ts
  induction ts with
  | nil => intro stack _; simp [matchLoop]
  | cons t ts ih =>
    intro stack h
    have hk : t.kind = .opening := h t (by simp)
    simp only [matchLoop, hk]
    rw [ih (t :: stack) (fun u hu => h u (by simp [hu]))]
    simp

/-- C4: a segment whose token stream is exactly one Closing token followed
only by Opening tokens (no opening before the closing) produces exactly one
`OrphanedClosing` error event, rendered as a replacement edit over exactly
the closing token's span; every character outside that span survives into
the matcher's output: the prefix verbatim in place, the suffix as a
sublist of the tail (only interleaved with inserted unclosed-block
fragments).  The monadic `_detect_malformed_blocks` computes exactly this
pure edit application whenever the presenter returns `R`. -/
theorem orphaned_closing_edit_c4 (text : List Char) (closeT : Tag)
    (rest : List Tag)
    (h0 : collectTags text = closeT :: rest)
    (hck : closeT.kind = .closing)
    (hrest : ∀ t ∈ rest, t.kind = .opening ∧ closeT.stop ≤ t.start ∧ t.start < t.stop)
    (hpair : List.Pairwise (fun a b => a.stop ≤ b.start) rest)
    (hspan : closeT.start + 4 = closeT.stop)
    (hlen : closeT.stop ≤ text.length) :
    (detectEvents text).filter isOrphan =
      [.orphanedClosing closeT.start closeT.stop] ∧
    (∀ R : ErrEvent → List Char, ∃ tail,
      applyEventEdits R text =
        text.take closeT.start ++
          R (.orphanedClosing closeT.start closeT.stop) ++ tail ∧
      List.Sublist (text.drop closeT.stop) tail) ∧
    (∀ (γ : Type) (c : Collab γ) (R : ErrEvent → List Char),
      (∀ ev, renderEventError c ev = .ok (R ev)) →
      detect_malformed_blocks c text = .ok (applyEventEdits R text)) := by
  have hev : detectEvents text =
      .orphanedClosing closeT.start closeT.stop ::
        rest.map (fun t => .unclosedBlock t.stop t.name) := by
    rw [detectEvents, h0, eventsOfTags]
    simp only [matchLoop, hck]
    rw [matchLoop_all_open rest [] (fun t ht => (hrest t ht).1)]
    simp
  refine ⟨?_, ?_, ?_⟩
  · rw [hev, List.filter_cons]
    have hnil : (rest.map (fun t => ErrEvent.unclosedBlock t.stop t.name)).filter
        isOrphan = [] := by
      induction rest with
      | nil => rfl
      | cons t ts iht => simp [List.filter_cons, isOrphan, iht]
    simp [isOrphan, hnil]
  · intro R
    rw [applyEventEdits, hev]
    set e0 : Nat × Nat × List Char :=
      (closeT.start, closeT.stop, R (.orphanedClosing closeT.start closeT.stop))
      with he0
    set insEdits : List (Nat × Nat × List Char) :=
      rest.map (fun t =>
        (t.stop, t.stop, R (.unclosedBlock t.stop t.name))) with hins
    have hmapedits :
        (ErrEvent.orphanedClosing closeT.start closeT.stop ::
          rest.map (fun t => ErrEvent.unclosedBlock t.stop t.name)).map
            (fun ev => editOfEvent ev (R ev)) = e0 :: insEdits := by
      simp only [List.map_cons, List.map_map, he0, hins, editOfEvent]
      congr 1
    rw [hmapedits, applyEdits]
    have hasc : List.Pairwise (fun a b : Nat × Nat × List Char => a.1 < b.1)
        (e0 :: insEdits) := by
      rw [List.pairwise_cons]
      constructor
      · intro ed hed
        rw [hins] at hed
        obtain ⟨t, ht, rfl⟩ := List.mem_map.1 hed
        obtain ⟨-, h1, h2⟩ := hrest t ht
        simp only [he0]
        omega
      · rw [hins, List.pairwise_map]
        refine hpair.imp_of_mem ?_
        intro a b ha hb hab
        obtain ⟨-, -, h2⟩ := hrest b hb
        simp only
        omega
    rw [sortDescBy_of_asc _ _ hasc]
    have hrev : (e0 :: insEdits).reverse = insEdits.reverse ++ [e0] := by
      simp
    rw [hrev, List.foldl_append]
    have hPlen : (text.take closeT.stop).length = closeT.stop := by
      simp [List.length_take]
      omega
    have hsplit := List.take_append_drop closeT.stop text
    obtain ⟨B2, hB2, hsub⟩ := foldl_insertions_high (text.take closeT.stop)
      insEdits.reverse (text.drop closeT.stop)
      (by
        intro ed hed
        rw [List.mem_reverse, hins] at hed
        obtain ⟨t, ht, rfl⟩ := List.mem_map.1 hed
        obtain ⟨-, h1, h2⟩ := hrest t ht
        constructor
        · rw [hPlen]; omega
        · rfl)
    rw [hsplit] at hB2
    rw [hB2]
    refine ⟨B2, ?_, hsub⟩
    simp only [List.foldl_cons, List.foldl_nil, he0]
    rw [List.take_append_eq_append_take, List.drop_append_eq_append_drop]
    have hcs : closeT.start ≤ (text.take closeT.stop).length := by
      rw [hPlen]; omega
    rw [List.drop_of_length_le (by rw [hPlen]),
      List.take_take, hPlen]
    have h1 : closeT.start - closeT.stop = 0 := by omega
    have h2 : closeT.stop - closeT.stop = 0 := by omega
    rw [h1, h2]
    have hmin : min closeT.start closeT.stop = closeT.start := by omega
    rw [hmin]
    simp
  · intro γ c R hR
    exact detect_eq_applyEventEdits c R text hR

end Spellbook

namespace Spellbook

theorem orphaned_closing_edit_c4_witness :
    ∃ tail,
      applyEventEdits (fun _ => "[E]".data) "\x7b~~\x7dabc\x7b~ z ~\x7d".data =
        "\x7b~~\x7dabc\x7b~ z ~\x7d".data.take 0 ++ "[E]".data ++ tail ∧
      List.Sublist ("\x7b~~\x7dabc\x7b~ z ~\x7d".data.drop 4) tail := by
  have h := orphaned_closing_edit_c4 "\x7b~~\x7dabc\x7b~ z ~\x7d".data
    ⟨.closing, 0, 4, []⟩ [⟨.opening, 7, 14, "z".data⟩]
    (by decide) rfl (by decide) (by decide) rfl (by decide)
  exact h.2.1 (fun _ => "[E]".data)

theorem mem_insertDescBy {α : Type} (key : α → Nat) (x y : α) :
    ∀ l : List α, y ∈ insertDescBy key x l ↔ y = x ∨ y ∈ l := by
  intro l
  induction l with
  | nil => simp [insertDescBy]
  | cons z zs ih =>
    by_cases h : key x ≤ key z
    · simp [insertDescBy, h, ih]
      tauto
    · simp [insertDescBy, h, ih]

theorem mem_sortDescBy {α : Type} (key : α → Nat) (y : α) :
    ∀ (l acc : List α),
      y ∈ l.foldl (fun acc x => insertDescBy key x acc) acc ↔ y ∈ acc ∨ y ∈ l := by
  intro l
  induction l with
  | nil => intro acc; simp
  | cons x xs ih =>
    intro acc
    rw [List.foldl_cons, ih, mem_insertDescBy]
    simp
    tauto

theorem sublist_foldl_insertions :
    ∀ (edits : List (Nat × Nat × List Char)) (t : List Char),
      (∀ ed ∈ edits, ed.2.1 = ed.1) →
      List.Sublist t
        (edits.foldl (fun acc ed => acc.take ed.1 ++ ed.2.2 ++ acc.drop ed.2.1) t) := by
  intro edits
  induction edits with
  | nil => intro t _; exact List.Sublist.refl t
  | cons ed rest ih =>
    intro t h
    rw [List.foldl_cons, h ed (by simp)]
    refine List.Sublist.trans ?_ (ih _ (fun e he => h e (by simp [he])))
    have h1 : List.Sublist t (t.take ed.1 ++ (ed.2.2 ++ t.drop ed.1)) := by
      conv_lhs => rw [← List.take_append_drop ed.1 t]
      exact (List.sublist_append_right ed.2.2 (t.drop ed.1)).append_left (t.take ed.1)
    have h2 : t.take ed.1 ++ (ed.2.2 ++ t.drop ed.1) =
        t.take ed.1 ++ ed.2.2 ++ t.drop ed.1 := by rw [List.append_assoc]
    exact h2 ▸ h1

/-- C5: when no orphaned closing occurs, the matcher's error events are
exactly one `UnclosedBlock` per remaining frame, in order, carrying the
frame's name and placed at the Opening token's end; each such event becomes
a pure insertion edit (start = end), so the whole original segment — the
opening tag text included — survives as a sublist of the matcher's output.
The monadic `_detect_malformed_blocks` computes exactly this pure edit
application whenever the presenter returns `R`. -/
theorem unclosed_block_edit_c5 (text : List Char)
    (horph : (matchLoop (collectTags text) []).1 = []) :
    detectEvents text =
      (matchLoop (collectTags text) []).2.reverse.map
        (fun t => .unclosedBlock t.stop t.name) ∧
    (∀ (p : Nat) (n r : List Char),
      editOfEvent (.unclosedBlock p n) r = (p, p, r)) ∧
    (((matchLoop (collectTags text) []).2.map Tag.stop).Nodup →
      ∀ t ∈ (matchLoop (collectTags text) []).2,
        (detectEvents text).count (.unclosedBlock t.stop t.name) = 1) ∧
    (∀ R : ErrEvent → List Char, List.Sublist text (applyEventEdits R text)) ∧
    (∀ (γ : Type) (c : Collab γ) (R : ErrEvent → List Char),
      (∀ ev, renderEventError c ev = .ok (R ev)) →
      detect_malformed_blocks c text = .ok (applyEventEdits R text)) := by
  have hev : detectEvents text =
      (matchLoop (collectTags text) []).2.reverse.map
        (fun t => .unclosedBlock t.stop t.name) := by
    rw [detectEvents, eventsOfTags]
    rcases hm : matchLoop (collectTags text) [] with ⟨orphans, stack⟩
    rw [hm] at horph
    simp only at horph
    subst horph
    simp
  refine ⟨hev, fun _ _ _ => rfl, ?_, ?_, ?_⟩
  · intro hnd t ht
    rcases hm : matchLoop (collectTags text) [] with ⟨orphans, stack⟩
    rw [hm] at hev hnd ht
    simp only at hev hnd ht
    have hstack_nodup : stack.Nodup := by
      have := hnd.of_map
      exact this
    have hinj : ∀ x ∈ stack, ∀ y ∈ stack, x.stop = y.stop → x = y := by
      intro x hx y hy hxy
      exact List.inj_on_of_nodup_map hnd hx hy hxy
    have hev_nodup : (detectEvents text).Nodup := by
      rw [hev]
      refine List.Nodup.map_on ?_ (List.nodup_reverse.2 hstack_nodup)
      intro x hx y hy hfxy
      simp only [ErrEvent.unclosedBlock.injEq] at hfxy
      exact hinj x (List.mem_reverse.1 hx) y (List.mem_reverse.1 hy) hfxy.1
    have hmem : ErrEvent.unclosedBlock t.stop t.name ∈ detectEvents text := by
      rw [hev]
      exact List.mem_map.2 ⟨t, List.mem_reverse.2 ht, rfl⟩
    exact List.count_eq_one_of_mem hev_nodup hmem
  · intro R
    rw [applyEventEdits, applyEdits]
    refine sublist_foldl_insertions _ text ?_
    intro ed hed
    rw [sortDescBy] at hed
    have hed2 := (mem_sortDescBy _ ed _ []).1 hed
    simp only [List.mem_map, List.not_mem_nil, false_or] at hed2
    obtain ⟨ev, hev2, rfl⟩ := hed2
    rw [hev] at hev2
    obtain ⟨u, hu, rfl⟩ := List.mem_map.1 hev2
    rfl
  · intro γ c R hR
    exact detect_eq_applyEventEdits c R text hR

theorem unclosed_block_edit_c5_witness :
    List.Sublist "\x7b~ a ~\x7dxy".data
      (applyEventEdits (fun _ => "[U]".data) "\x7b~ a ~\x7dxy".data) :=
  (unclosed_block_edit_c5 "\x7b~ a ~\x7dxy".data (by decide)).2.2.2.1
    (fun _ => "[U]".data)

end Spellbook

namespace Spellbook

/-- No match of `f` begins at any position inside `a` (continuing into
`r`). -/
def NoStarts {γ : Type} (f : List Char → Option γ) (a r : List Char) : Prop :=
  ∀ i, i < a.length → f (a.drop i ++ r) = none

theorem noStarts_nil {γ : Type} (f : List Char → Option γ) (r : List Char) :
    NoStarts f [] r := by
  intro i hi
  simp at hi

theorem noStarts_singleton {γ : Type} (f : List Char → Option γ) (x : Char)
    (r : List Char) (h : f (x :: r) = none) : NoStarts f [x] r := by
  intro i hi
  cases i with
  | zero => simpa using h
  | succ j => simp only [List.length_singleton] at hi; omega

theorem noStarts_append {γ : Type} (f : List Char → Option γ) (a b r : List Char)
    (h1 : NoStarts f a (b ++ r)) (h2 : NoStarts f b r) :
    NoStarts f (a ++ b) r := by
  intro i hi
  rw [List.drop_append_eq_append_drop]
  by_cases hc : i < a.length
  · have : b.drop (i - a.length) = b := by
      rw [Nat.sub_eq_zero_of_le (by omega)]
      rfl
    rw [this, List.append_assoc]
    exact h1 i hc
  · have ha : a.drop i = [] := List.drop_of_length_le (by omega)
    rw [ha, List.nil_append]
    refine h2 (i - a.length) ?_
    simp only [List.length_append] at hi
    omega

theorem noStarts_tildeFree {γ : Type} (f : List Char → Option γ)
    (Hm : ∀ s : List Char, s.tail.head? ≠ some '~' → f s = none) :
    ∀ (a r : List Char), (∀ c ∈ a, c ≠ '~') → r.head? ≠ some '~' →
      NoStarts f a r := by
  intro a
  induction a with
  | nil => intro r _ _; exact noStarts_nil f r
  | cons c cs ih =>
    intro r ha hr
    intro i hi
    cases i with
    | zero =>
      refine Hm _ ?_
      cases cs with
      | nil => simpa using hr
      | cons d ds =>
        simp only [List.drop_zero, List.cons_append, List.tail_cons,
          List.head?_cons, ne_eq, Option.some.injEq]
        exact ha d (by simp)
    | succ j =>
      simp only [List.drop_succ_cons]
      refine ih r (fun d hd => ha d (by simp [hd])) hr j ?_
      simp only [List.length_cons] at hi
      omega

theorem noStarts_noBrace {γ : Type} (f : List Char → Option γ)
    (Hm : ∀ s : List Char, s.head? ≠ some '{' → f s = none) :
    ∀ (a r : List Char), (∀ c ∈ a, c ≠ '{') → NoStarts f a r := by
  intro a
  induction a with
  | nil => intro r _; exact noStarts_nil f r
  | cons c cs ih =>
    intro r ha
    intro i hi
    cases i with
    | zero =>
      refine Hm _ ?_
      simp only [List.drop_zero, List.cons_append, List.head?_cons, ne_eq,
        Option.some.injEq]
      exact ha c (by simp)
    | succ j =>
      simp only [List.drop_succ_cons]
      refine ih r (fun d hd => ha d (by simp [hd])) j ?_
      simp only [List.length_cons] at hi
      omega

theorem mOpen_headBrace (s : List Char) (h : s.head? ≠ some '{') :
    matchOpenAt s = none := by
  match s with
  | [] => rfl
  | [c] => rfl
  | c1 :: c2 :: rest =>
    rw [matchOpenAt, if_neg]
    intro hg
    exact h (by simp [hg.1])

theorem mOpen_tailTilde (s : List Char) (h : s.tail.head? ≠ some '~') :
    matchOpenAt s = none := by
  match s with
  | [] => rfl
  | [c] => rfl
  | c1 :: c2 :: rest =>
    rw [matchOpenAt, if_neg]
    intro hg
    exact h (by simp [hg.2])

theorem mSelf_headBrace (s : List Char) (h : s.head? ≠ some '{') :
    matchSelfCloseAt s = none := by
  match s with
  | [] => rfl
  | [c] => rfl
  | c1 :: c2 :: rest =>
    rw [matchSelfCloseAt, if_neg]
    intro hg
    exact h (by simp [hg.1])

theorem mSelf_tailTilde (s : List Char) (h : s.tail.head? ≠ some '~') :
    matchSelfCloseAt s = none := by
  match s with
  | [] => rfl
  | [c] => rfl
  | c1 :: c2 :: rest =>
    rw [matchSelfCloseAt, if_neg]
    intro hg
    exact h (by simp [hg.2])

theorem mClose_headBrace (s : List Char) (h : s.head? ≠ some '{') :
    matchCloseAt s = none := by
  rw [matchCloseAt, if_neg]
  intro habs
  match s, habs with
  | [], habs => simp [closeLit] at habs
  | c1 :: rest, habs =>
    have h4 : List.take 4 (c1 :: rest) = c1 :: List.take 3 rest := rfl
    rw [h4, closeLit] at habs
    injection habs with h1 h2
    exact h (by simp [h1])

theorem mClose_tailTilde (s : List Char) (h : s.tail.head? ≠ some '~') :
    matchCloseAt s = none := by
  rw [matchCloseAt, if_neg]
  intro habs
  match s, habs with
  | [], habs => simp [closeLit] at habs
  | [c1], habs =>
    have h4 : List.take 4 [c1] = [c1] := rfl
    rw [h4, closeLit] at habs
    injection habs with h1 h2
    simp at h2
  | c1 :: c2 :: rest, habs =>
    have h4 : List.take 4 (c1 :: c2 :: rest) = c1 :: c2 :: List.take 2 rest := rfl
    rw [h4, closeLit] at habs
    injection habs with h1 h2
    injection h2 with h2 h3
    exact h (by simp [h2])

end Spellbook

namespace Spellbook

theorem scanOpens_skip (a : List Char) :
    ∀ (r : List Char) (p : Nat), NoStarts matchOpenAt a r →
      scanOpens p (a ++ r) = scanOpens (p + a.length) r := by
  induction a with
  | nil => intro r p _; simp
  | cons c cs ih =>
    intro r p h
    have h0 : matchOpenAt (c :: (cs ++ r)) = none := by
      have h1 := h 0 (by simp)
      rw [List.drop_zero, List.cons_append] at h1
      exact h1
    rw [List.cons_append, scanOpens]
    simp only [h0]
    rw [ih r (p + 1) (fun i hi => by
      have := h (i + 1) (by simp only [List.length_cons]; omega)
      simpa using this)]
    simp only [List.length_cons]
    congr 1
    omega

theorem scanSelfSpans_skip (a : List Char) :
    ∀ (r : List Char) (p : Nat), NoStarts matchSelfCloseAt a r →
      scanSelfSpans p (a ++ r) = scanSelfSpans (p + a.length) r := by
  induction a with
  | nil => intro r p _; simp
  | cons c cs ih =>
    intro r p h
    have h0 : matchSelfCloseAt (c :: (cs ++ r)) = none := by
      have h1 := h 0 (by simp)
      rw [List.drop_zero, List.cons_append] at h1
      exact h1
    rw [List.cons_append, scanSelfSpans]
    simp only [h0]
    rw [ih r (p + 1) (fun i hi => by
      have := h (i + 1) (by simp only [List.length_cons]; omega)
      simpa using this)]
    simp only [List.length_cons]
    congr 1
    omega

theorem scanCloses_skip (a : List Char) :
    ∀ (r : List Char) (p : Nat), NoStarts matchCloseAt a r →
      scanCloses p (a ++ r) = scanCloses (p + a.length) r := by
  induction a with
  | nil => intro r p _; simp
  | cons c cs ih =>
    intro r p h
    have h0 : matchCloseAt (c :: (cs ++ r)) = none := by
      have h1 := h 0 (by simp)
      rw [List.drop_zero, List.cons_append] at h1
      exact h1
    rw [List.cons_append, scanCloses]
    simp only [h0]
    rw [ih r (p + 1) (fun i hi => by
      have := h (i + 1) (by simp only [List.length_cons]; omega)
      simpa using this)]
    simp only [List.length_cons]
    congr 1
    omega

theorem scanOpens_nil_of (t : List Char) (p : Nat)
    (h : NoStarts matchOpenAt t []) : scanOpens p t = [] := by
  have := scanOpens_skip t [] p h
  simpa using this

theorem scanSelfSpans_nil_of (t : List Char) (p : Nat)
    (h : NoStarts matchSelfCloseAt t []) : scanSelfSpans p t = [] := by
  have := scanSelfSpans_skip t [] p h
  simpa using this

theorem scanCloses_nil_of (t : List Char) (p : Nat)
    (h : NoStarts matchCloseAt t []) : scanCloses p t = [] := by
  have := scanCloses_skip t [] p h
  simpa using this

theorem psc_identity (c : Collab β) (rec : List Char → PyRes) :
    ∀ (fuel : Nat) (t : List Char), NoStarts matchSelfCloseAt t [] →
      t.length < fuel → process_self_closing_blocks c rec fuel t = .ok t := by
  intro fuel
  induction fuel with
  | zero => intro t _ h; omega
  | succ fuel ih =>
    intro t hns hlen
    cases t with
    | nil => rfl
    | cons x xs =>
      have h0 : matchSelfCloseAt (x :: xs) = none := by
        have := hns 0 (by simp)
        simpa using this
      rw [process_self_closing_blocks]
      simp only [h0]
      rw [ih xs (fun i hi => by
        have := hns (i + 1) (by simp only [List.length_cons]; omega)
        simpa using this) (by simp only [List.length_cons] at hlen; omega)]
      rfl

theorem pcb_identity (c : Collab β) (rec : List Char → PyRes) :
    ∀ (fuel : Nat) (t : List Char), NoStarts matchOpenAt t [] →
      t.length < fuel → process_content_blocks c rec fuel t = .ok t := by
  intro fuel
  induction fuel with
  | zero => intro t _ h; omega
  | succ fuel ih =>
    intro t hns hlen
    cases t with
    | nil => rfl
    | cons x xs =>
      have h0 : matchOpenAt (x :: xs) = none := by
        have := hns 0 (by simp)
        simpa using this
      rw [process_content_blocks]
      simp only [h0]
      rw [ih xs (fun i hi => by
        have := hns (i + 1) (by simp only [List.length_cons]; omega)
        simpa using this) (by simp only [List.length_cons] at hlen; omega)]
      rfl

theorem pcb_skip (c : Collab β) (rec : List Char → PyRes) (a : List Char) :
    ∀ (r : List Char) (fuel : Nat), NoStarts matchOpenAt a r →
      process_content_blocks c rec (a.length + fuel) (a ++ r) =
        (process_content_blocks c rec fuel r).map (fun t => a ++ t) := by
  induction a with
  | nil =>
    intro r fuel _
    simp only [List.length_nil, Nat.zero_add, List.nil_append]
    cases process_content_blocks c rec fuel r <;> rfl
  | cons x xs ih =>
    intro r fuel h
    have h0 : matchOpenAt (x :: (xs ++ r)) = none := by
      have h1 := h 0 (by simp)
      rw [List.drop_zero, List.cons_append] at h1
      exact h1
    have hlen : (x :: xs).length + fuel = (xs.length + fuel) + 1 := by
      simp only [List.length_cons]
      omega
    rw [hlen, List.cons_append, process_content_blocks]
    simp only [h0]
    rw [ih r fuel (fun i hi => by
      have := h (i + 1) (by simp only [List.length_cons]; omega)
      simpa using this)]
    cases process_content_blocks c rec fuel r <;> rfl

end Spellbook

namespace Spellbook

theorem ws_ne_tilde {c : Char} (h : isWS c = true) : c ≠ '~' := by
  have := ws_notTilde h
  simpa [notTilde] using this

theorem word_ne_tilde {c : Char} (h : isWord c = true) : c ≠ '~' := by
  intro habs
  rw [habs] at h
  exact absurd h (by decide)

theorem ws_ne_brace {c : Char} (h : isWS c = true) : c ≠ '{' := by
  simp only [isWS, Bool.or_eq_true, decide_eq_true_eq] at h
  obtain ((((h | h) | h) | h) | h) | h := h <;> subst h <;> decide

theorem word_ne_brace {c : Char} (h : isWord c = true) : c ≠ '{' := by
  intro habs
  rw [habs] at h
  exact absurd h (by decide)

theorem openCore_built (w1 name w2 suf : List Char)
    (hw1 : ∀ c ∈ w1, isWS c = true) (hw2 : ∀ c ∈ w2, isWS c = true)
    (hne : name ≠ []) (hword : ∀ c ∈ name, isWord c = true) :
    openCore (w1 ++ (name ++ (w2 ++ ('~' :: '}' :: suf)))) =
      some (w1, name, w2, [], '~' :: '}' :: suf) := by
  obtain ⟨n0, ns, rfl⟩ := List.exists_cons_of_ne_nil hne
  have hnh : ∀ b0, ((n0 :: ns) ++ (w2 ++ ('~' :: '}' :: suf))).head? = some b0 →
      isWS b0 = false := by
    intro b0 hb
    simp only [List.cons_append, List.head?_cons, Option.some.injEq] at hb
    subst hb
    exact word_not_ws (hword n0 (by simp))
  have hR2 : ∀ b0, (w2 ++ ('~' :: '}' :: suf)).head? = some b0 →
      isWord b0 = false := by
    cases w2 with
    | cons w wr =>
      intro b0 hb
      simp only [List.cons_append, List.head?_cons, Option.some.injEq] at hb
      subst hb
      exact ws_not_word (hw2 w (by simp))
    | nil =>
      intro b0 hb
      simp only [List.nil_append, List.head?_cons, Option.some.injEq] at hb
      subst hb
      decide
  have hR3 : ∀ b0, ('~' :: '}' :: suf).head? = some b0 → isWS b0 = false := by
    intro b0 hb
    simp only [List.head?_cons, Option.some.injEq] at hb
    subst hb
    decide
  have stA : (w1 ++ ((n0 :: ns) ++ (w2 ++ ('~' :: '}' :: suf)))).takeWhile isWS
      = w1 := takeWhile_eq_of_head isWS _ _ hw1 hnh
  have stB : (w1 ++ ((n0 :: ns) ++ (w2 ++ ('~' :: '}' :: suf)))).dropWhile isWS
      = (n0 :: ns) ++ (w2 ++ ('~' :: '}' :: suf)) :=
    dropWhile_eq_of_head isWS _ _ hw1 hnh
  have stC : ((n0 :: ns) ++ (w2 ++ ('~' :: '}' :: suf))).takeWhile isWord
      = n0 :: ns := takeWhile_eq_of_head isWord _ _ hword hR2
  have stD : ((n0 :: ns) ++ (w2 ++ ('~' :: '}' :: suf))).dropWhile isWord
      = w2 ++ ('~' :: '}' :: suf) := dropWhile_eq_of_head isWord _ _ hword hR2
  have stE : (w2 ++ ('~' :: '}' :: suf)).takeWhile isWS = w2 :=
    takeWhile_eq_of_head isWS _ _ hw2 hR3
  have stF : (w2 ++ ('~' :: '}' :: suf)).dropWhile isWS = '~' :: '}' :: suf :=
    dropWhile_eq_of_head isWS _ _ hw2 hR3
  have stG : ('~' :: '}' :: suf).takeWhile notTilde = [] := by
    simp [List.takeWhile_cons, notTilde]
  have stH : ('~' :: '}' :: suf).dropWhile notTilde = '~' :: '}' :: suf := by
    simp [List.dropWhile_cons, notTilde]
  simp only [openCore, stA, stB, stC, stD, stE, stF, stG, stH]
  simp

theorem matchOpenAt_built (w1 name w2 suf : List Char)
    (hw1 : ∀ c ∈ w1, isWS c = true) (hw2 : ∀ c ∈ w2, isWS c = true)
    (hne : name ≠ []) (hword : ∀ c ∈ name, isWord c = true) :
    matchOpenAt ('{' :: '~' :: (w1 ++ (name ++ (w2 ++ ('~' :: '}' :: suf))))) =
      some (2 + w1.length + name.length + w2.length + 0 + 2, name, []) := by
  rw [matchOpenAt, if_pos ⟨rfl, rfl⟩]
  simp only [openCore_built w1 name w2 suf hw1 hw2 hne hword]
  have hc : List.take 2 ('~' :: '}' :: suf) = ['~', '}'] := rfl
  rw [if_pos hc]
  rfl

theorem matchSelfCloseAt_built (w1 name w2 suf : List Char)
    (hw1 : ∀ c ∈ w1, isWS c = true) (hw2 : ∀ c ∈ w2, isWS c = true)
    (hne : name ≠ []) (hword : ∀ c ∈ name, isWord c = true) :
    matchSelfCloseAt ('{' :: '~' :: (w1 ++ (name ++ (w2 ++ ('~' :: '}' :: suf)))))
      = none := by
  rw [matchSelfCloseAt, if_pos ⟨rfl, rfl⟩]
  simp only [openCore_built w1 name w2 suf hw1 hw2 hne hword]
  rw [if_neg]
  simp

theorem matchCloseAt_tagStart (w1 name w2 suf : List Char)
    (hw1 : ∀ c ∈ w1, isWS c = true)
    (hne : name ≠ []) (hword : ∀ c ∈ name, isWord c = true) :
    matchCloseAt ('{' :: '~' :: (w1 ++ (name ++ (w2 ++ ('~' :: '}' :: suf)))))
      = none := by
  rw [matchCloseAt, if_neg]
  intro habs
  have h4 : List.take 4 ('{' :: '~' :: (w1 ++ (name ++ (w2 ++ ('~' :: '}' :: suf)))))
      = '{' :: '~' :: List.take 2 (w1 ++ (name ++ (w2 ++ ('~' :: '}' :: suf)))) := rfl
  rw [h4, closeLit] at habs
  injection habs with h1 h2
  injection h2 with h2 h3
  obtain ⟨n0, ns, rfl⟩ := List.exists_cons_of_ne_nil hne
  cases w1 with
  | cons w wr =>
    have h5 : List.take 2 ((w :: wr) ++ ((n0 :: ns) ++ (w2 ++ ('~' :: '}' :: suf))))
        = w :: List.take 1 (wr ++ ((n0 :: ns) ++ (w2 ++ ('~' :: '}' :: suf)))) := rfl
    rw [h5] at h3
    injection h3 with h6 h7
    exact ws_ne_tilde (hw1 w (by simp)) h6
  | nil =>
    have h5 : List.take 2 (([] : List Char) ++ ((n0 :: ns) ++ (w2 ++ ('~' :: '}' :: suf))))
        = n0 :: List.take 1 (ns ++ (w2 ++ ('~' :: '}' :: suf))) := rfl
    rw [h5] at h3
    injection h3 with h6 h7
    exact word_ne_tilde (hword n0 (by simp)) h6

theorem matchOpenAt_closeLit (b : List Char) :
    matchOpenAt (closeLit ++ b) = none := by
  show matchOpenAt ('{' :: '~' :: ('~' :: '}' :: b)) = none
  rw [matchOpenAt, if_pos ⟨rfl, rfl⟩]
  have hoc : openCore ('~' :: '}' :: b) = none := by
    have d1 : isWS '~' = false := by decide
    have d2 : isWord '~' = false := by decide
    simp only [openCore, List.takeWhile_cons, List.dropWhile_cons, d1, d2]
    simp [d2]
  rw [hoc]

theorem matchSelfCloseAt_closeLit (b : List Char) :
    matchSelfCloseAt (closeLit ++ b) = none := by
  show matchSelfCloseAt ('{' :: '~' :: ('~' :: '}' :: b)) = none
  rw [matchSelfCloseAt, if_pos ⟨rfl, rfl⟩]
  have hoc : openCore ('~' :: '}' :: b) = none := by
    have d1 : isWS '~' = false := by decide
    have d2 : isWord '~' = false := by decide
    simp only [openCore, List.takeWhile_cons, List.dropWhile_cons, d1, d2]
    simp [d2]
  rw [hoc]

theorem take4_ne_closeLit_of_tail (s : List Char)
    (h : s.tail.head? ≠ some '~') : List.take 4 s ≠ closeLit := by
  intro habs
  match s, habs with
  | [], habs => simp [closeLit] at habs
  | [c1], habs =>
    have h4 : List.take 4 [c1] = [c1] := rfl
    rw [h4, closeLit] at habs
    injection habs with h1 h2
    simp at h2
  | c1 :: c2 :: rest, habs =>
    have h4 : List.take 4 (c1 :: c2 :: rest) = c1 :: c2 :: List.take 2 rest := rfl
    rw [h4, closeLit] at habs
    injection habs with h1 h2
    injection h2 with h2 h3
    exact h (by simp [h2])

theorem ffc_built (b : List Char) :
    ∀ content : List Char, (∀ ch ∈ content, ch ≠ '~') →
      findFirstClose (content ++ (closeLit ++ b)) = some (content, b) := by
  intro content
  induction content with
  | nil =>
    intro _
    show findFirstClose ('{' :: ('~' :: '~' :: '}' :: b)) = some ([], b)
    have hc : List.take 4 ('{' :: ('~' :: '~' :: '}' :: b)) = closeLit := rfl
    rw [findFirstClose, if_pos hc]
    rfl
  | cons c cs ih =>
    intro h
    rw [List.cons_append, findFirstClose,
      if_neg (take4_ne_closeLit_of_tail _ ?_), ih (fun d hd => h d (by simp [hd]))]
    have htl : (c :: (cs ++ (closeLit ++ b))).tail = cs ++ (closeLit ++ b) := rfl
    rw [htl]
    cases cs with
    | cons d ds =>
      simp only [List.cons_append, List.head?_cons, ne_eq, Option.some.injEq]
      exact h d (by simp)
    | nil =>
      simp only [List.nil_append, closeLit, List.cons_append, List.head?_cons,
        ne_eq, Option.some.injEq]
      decide

end Spellbook

namespace Spellbook

theorem mem_pyStrip {s : List Char} {c : Char} (h : c ∈ pyStrip s) : c ∈ s := by
  unfold pyStrip at h
  have h1 := List.mem_reverse.1 h
  have h2 := (List.dropWhile_sublist isWS).subset h1
  have h3 := List.mem_reverse.1 h2
  exact (List.dropWhile_sublist isWS).subset h3

theorem collectTags_tildeFree (t : List Char) (ht : ∀ ch ∈ t, ch ≠ '~') :
    collectTags t = [] := by
  have hr : (([] : List Char)).head? ≠ some '~' := by simp
  have hO := noStarts_tildeFree matchOpenAt mOpen_tailTilde t [] ht hr
  have hS := noStarts_tildeFree matchSelfCloseAt mSelf_tailTilde t [] ht hr
  have hC := noStarts_tildeFree matchCloseAt mClose_tailTilde t [] ht hr
  simp only [collectTags, scanOpens_nil_of t 0 hO, scanSelfSpans_nil_of t 0 hS,
    scanCloses_nil_of t 0 hC]
  rfl

theorem detect_tildeFree (c : Collab β) (t : List Char)
    (ht : ∀ ch ∈ t, ch ≠ '~') : detect_malformed_blocks c t = .ok t := by
  rw [detect_malformed_blocks, detectEvents, collectTags_tildeFree t ht]
  rfl

theorem ps_tildeFree (c : Collab β) (d : Nat) (t : List Char)
    (ht : ∀ ch ∈ t, ch ≠ '~') : process_spellblocks c (d + 1) t = .ok t := by
  have hr : (([] : List Char)).head? ≠ some '~' := by simp
  have hO := noStarts_tildeFree matchOpenAt mOpen_tailTilde t [] ht hr
  have hS := noStarts_tildeFree matchSelfCloseAt mSelf_tailTilde t [] ht hr
  rw [process_spellblocks, detect_tildeFree c t ht, bind_ok_py,
    psc_identity c _ (t.length + 1) t hS (by omega), bind_ok_py]
  exact pcb_identity c _ (t.length + 1) t hO (by omega)

theorem sortAscBy_pair {α : Type} (key : α → Nat) (x y : α)
    (h : key x ≤ key y) : sortAscBy key [x, y] = [x, y] := by
  simp [sortAscBy, insertAscBy, h]

/-- The padded fragment a resolved block contributes
(`\n\n` + stripped fragment + `\n\n`, or nothing when it strips to
empty). -/
def padFrag (frag : List Char) : List Char :=
  if pyStrip frag = [] then [] else nl2 ++ pyStrip frag ++ nl2

end Spellbook

namespace Spellbook

theorem head_cons_ne_tilde {x : Char} (hx : x ≠ '~') (l : List Char) :
    (x :: l).head? ≠ some '~' := by
  simp only [List.head?_cons, ne_eq, Option.some.injEq]
  exact hx

theorem collectTags_singlePair (a w1 name w2 content b : List Char)
    (ha : ∀ ch ∈ a, ch ≠ '~') (hcontent : ∀ ch ∈ content, ch ≠ '~')
    (hb : ∀ ch ∈ b, ch ≠ '~')
    (hw1 : ∀ ch ∈ w1, isWS ch = true) (hw2 : ∀ ch ∈ w2, isWS ch = true)
    (hnam : name ≠ []) (hword : ∀ ch ∈ name, isWord ch = true) :
    ∃ p1 q1 p2 q2, p1 ≤ p2 ∧
      collectTags (a ++ ('{' :: '~' :: (w1 ++ (name ++ (w2 ++
          ('~' :: '}' :: (content ++ (closeLit ++ b)))))))) =
        [⟨.opening, p1, q1, name⟩, ⟨.closing, p2, q2, []⟩] := by
  set suf : List Char := content ++ (closeLit ++ b) with hsuf
  set intC : List Char := '~' :: (w1 ++ (name ++ (w2 ++ (['~', '}'] : List Char))))
    with hintC
  set tail3 : List Char := ['~', '~', '}'] with htail3
  have hform1 : intC ++ suf = '~' :: (w1 ++ (name ++ (w2 ++ ('~' :: '}' :: suf)))) := by
    simp [hintC, List.append_assoc]
  have hbody : ('{' : Char) :: '~' :: (w1 ++ (name ++ (w2 ++ ('~' :: '}' :: suf))))
      = '{' :: (intC ++ suf) := by
    rw [hform1]
  have hintNoBrace : ∀ ch ∈ intC, ch ≠ '{' := by
    intro ch hch
    rw [hintC] at hch
    simp only [List.mem_cons, List.mem_append] at hch
    rcases hch with h | ((h | (h | (h | h))))
    · subst h; decide
    · exact ws_ne_brace (hw1 ch h)
    · exact word_ne_brace (hword ch h)
    · exact ws_ne_brace (hw2 ch h)
    · rcases h with h | h | h
      · subst h; decide
      · subst h; decide
      · simp at h
  have htail3NoBrace : ∀ ch ∈ tail3, ch ≠ '{' := by
    intro ch hch
    rw [htail3] at hch
    simp only [List.mem_cons, List.not_mem_nil, or_false] at hch
    rcases hch with h | (h | h) <;> subst h <;> decide
  have hclb : closeLit ++ b = '{' :: (tail3 ++ b) := rfl
  -- scanOpens
  have hOa : NoStarts matchOpenAt a ('{' :: '~' :: (w1 ++ (name ++ (w2 ++
      ('~' :: '}' :: suf))))) :=
    noStarts_tildeFree _ mOpen_tailTilde a _ ha (head_cons_ne_tilde (by decide) _)
  have hOint : NoStarts matchOpenAt intC suf :=
    noStarts_noBrace _ mOpen_headBrace intC suf hintNoBrace
  have hOcontent : NoStarts matchOpenAt content (closeLit ++ b) :=
    noStarts_tildeFree _ mOpen_tailTilde content _ hcontent
      (by rw [hclb]; exact head_cons_ne_tilde (by decide) _)
  have hOtail3 : NoStarts matchOpenAt tail3 b :=
    noStarts_noBrace _ mOpen_headBrace tail3 b htail3NoBrace
  have hOb : NoStarts matchOpenAt b [] :=
    noStarts_tildeFree _ mOpen_tailTilde b [] hb (by simp)
  have hOpen1 : matchOpenAt ('{' :: (intC ++ suf)) =
      some (2 + w1.length + name.length + w2.length + 0 + 2, name, []) := by
    rw [← hbody]
    exact matchOpenAt_built w1 name w2 suf hw1 hw2 hnam hword
  have hOpenCL : matchOpenAt ('{' :: (tail3 ++ b)) = none := matchOpenAt_closeLit b
  have hscanO : scanOpens 0 (a ++ ('{' :: '~' :: (w1 ++ (name ++ (w2 ++
      ('~' :: '}' :: suf)))))) =
      [⟨.opening, 0 + a.length,
        0 + a.length + (2 + w1.length + name.length + w2.length + 0 + 2), name⟩] := by
    rw [scanOpens_skip a _ 0 hOa, hbody, scanOpens]
    simp only [hOpen1]
    rw [scanOpens_skip intC suf (0 + a.length + 1) hOint, hsuf,
      scanOpens_skip content (closeLit ++ b) _ hOcontent, hclb, scanOpens]
    simp only [hOpenCL]
    rw [scanOpens_skip tail3 b _ hOtail3, scanOpens_nil_of b _ hOb]
  -- scanSelfSpans
  have hSa : NoStarts matchSelfCloseAt a ('{' :: '~' :: (w1 ++ (name ++ (w2 ++
      ('~' :: '}' :: suf))))) :=
    noStarts_tildeFree _ mSelf_tailTilde a _ ha (head_cons_ne_tilde (by decide) _)
  have hSint : NoStarts matchSelfCloseAt intC suf :=
    noStarts_noBrace _ mSelf_headBrace intC suf hintNoBrace
  have hScontent : NoStarts matchSelfCloseAt content (closeLit ++ b) :=
    noStarts_tildeFree _ mSelf_tailTilde content _ hcontent
      (by rw [hclb]; exact head_cons_ne_tilde (by decide) _)
  have hStail3 : NoStarts matchSelfCloseAt tail3 b :=
    noStarts_noBrace _ mSelf_headBrace tail3 b htail3NoBrace
  have hSb : NoStarts matchSelfCloseAt b [] :=
    noStarts_tildeFree _ mSelf_tailTilde b [] hb (by simp)
  have hSelf1 : matchSelfCloseAt ('{' :: (intC ++ suf)) = none := by
    rw [← hbody]
    exact matchSelfCloseAt_built w1 name w2 suf hw1 hw2 hnam hword
  have hSelfCL : matchSelfCloseAt ('{' :: (tail3 ++ b)) = none :=
    matchSelfCloseAt_closeLit b
  have hscanS : scanSelfSpans 0 (a ++ ('{' :: '~' :: (w1 ++ (name ++ (w2 ++
      ('~' :: '}' :: suf)))))) = [] := by
    rw [scanSelfSpans_skip a _ 0 hSa, hbody, scanSelfSpans]
    simp only [hSelf1]
    rw [scanSelfSpans_skip intC suf _ hSint, hsuf,
      scanSelfSpans_skip content (closeLit ++ b) _ hScontent, hclb, scanSelfSpans]
    simp only [hSelfCL]
    rw [scanSelfSpans_skip tail3 b _ hStail3, scanSelfSpans_nil_of b _ hSb]
  -- scanCloses
  have hCa : NoStarts matchCloseAt a ('{' :: '~' :: (w1 ++ (name ++ (w2 ++
      ('~' :: '}' :: suf))))) :=
    noStarts_tildeFree _ mClose_tailTilde a _ ha (head_cons_ne_tilde (by decide) _)
  have hCint : NoStarts matchCloseAt intC suf :=
    noStarts_noBrace _ mClose_headBrace intC suf hintNoBrace
  have hCcontent : NoStarts matchCloseAt content (closeLit ++ b) :=
    noStarts_tildeFree _ mClose_tailTilde content _ hcontent
      (by rw [hclb]; exact head_cons_ne_tilde (by decide) _)
  have hCtail3 : NoStarts matchCloseAt tail3 b :=
    noStarts_noBrace _ mClose_headBrace tail3 b htail3NoBrace
  have hCb : NoStarts matchCloseAt b [] :=
    noStarts_tildeFree _ mClose_tailTilde b [] hb (by simp)
  have hClose1 : matchCloseAt ('{' :: (intC ++ suf)) = none := by
    rw [← hbody]
    exact matchCloseAt_tagStart w1 name w2 suf hw1 hnam hword
  have hCloseCL : matchCloseAt ('{' :: (tail3 ++ b)) = some 4 := by
    have hc : List.take 4 ('{' :: (tail3 ++ b)) = closeLit := rfl
    rw [matchCloseAt, if_pos hc]
  have hscanC : scanCloses 0 (a ++ ('{' :: '~' :: (w1 ++ (name ++ (w2 ++
      ('~' :: '}' :: suf)))))) =
      [⟨.closing, 0 + a.length + 1 + intC.length + content.length,
        0 + a.length + 1 + intC.length + content.length + 4, []⟩] := by
    rw [scanCloses_skip a _ 0 hCa, hbody, scanCloses]
    simp only [hClose1]
    rw [scanCloses_skip intC suf _ hCint, hsuf,
      scanCloses_skip content (closeLit ++ b) _ hCcontent, hclb, scanCloses]
    simp only [hCloseCL]
    rw [scanCloses_skip tail3 b _ hCtail3, scanCloses_nil_of b _ hCb]
  -- assemble
  refine ⟨0 + a.length, 0 + a.length + (2 + w1.length + name.length + w2.length + 0 + 2),
    0 + a.length + 1 + intC.length + content.length,
    0 + a.length + 1 + intC.length + content.length + 4, ?_, ?_⟩
  · rw [hintC]
    simp only [List.length_cons, List.length_append, List.length_nil]
    omega
  · rw [collectTags, hscanO, hscanS, hscanC]
    have hfilter : ([⟨.opening, 0 + a.length,
        0 + a.length + (2 + w1.length + name.length + w2.length + 0 + 2), name⟩] :
          List Tag).filter
        (fun t => ¬ ([] : List (Nat × Nat)).any
          (fun sp => sp.1 ≤ t.start ∧ t.stop ≤ sp.2)) =
        [⟨.opening, 0 + a.length,
          0 + a.length + (2 + w1.length + name.length + w2.length + 0 + 2), name⟩] := by
      simp
    rw [hfilter]
    refine sortAscBy_pair Tag.start _ _ ?_
    simp only [Tag.start]
    omega

end Spellbook

namespace Spellbook

theorem noStarts_cast {γ : Type} {f : List Char → Option γ} {x r r' : List Char}
    (h : NoStarts f x r) (he : r = r') : NoStarts f x r' := he ▸ h

theorem bind_pure_py {a g : Type} (x : a) (f : a → Except PyExc g) :
    (do let y ← (pure x : Except PyExc a); f y) = f x := rfl

theorem render_spellblock_single (c : Collab β) (d : Nat)
    (name content : List Char) (bk : β) (frag : List Char)
    (hcontent : ∀ ch ∈ content, ch ≠ '~')
    (hcb : c.createBlock name content [] = .ok (some bk))
    (hrb : c.renderBlock bk = .ok frag) :
    render_spellblock c (process_spellblocks c (d + 1)) name [] content false =
      .ok (padFrag frag) := by
  have hattempt : render_spellblock_attempt c (process_spellblocks c (d + 1))
      name [] content false = .ok (padFrag frag) := by
    simp only [render_spellblock_attempt]
    split
    · rename_i hc
      have hnil : content = [] := by
        cases content with
        | nil => rfl
        | cons x xs => simp at hc
      subst hnil
      rw [bind_pure_py]
      have hargs : c.createBlock name
          (if (false : Bool) = true then [] else ([] : List Char))
          (parse_arguments []) = .ok (some bk) := hcb
      rw [hargs, bind_ok_py]
      show (c.renderBlock bk >>= fun rendered =>
        if pyStrip rendered = [] then pure []
        else pure (nl2 ++ pyStrip rendered ++ nl2)) = Except.ok (padFrag frag)
      rw [hrb, bind_ok_py]
      by_cases hs : pyStrip frag = [] <;> simp [padFrag, hs] <;> rfl
    · rename_i hc
      rw [ps_tildeFree c d content hcontent, bind_ok_py]
      have hargs : c.createBlock name
          (if (false : Bool) = true then [] else content)
          (parse_arguments []) = .ok (some bk) := hcb
      rw [hargs, bind_ok_py]
      show (c.renderBlock bk >>= fun rendered =>
        if pyStrip rendered = [] then pure []
        else pure (nl2 ++ pyStrip rendered ++ nl2)) = Except.ok (padFrag frag)
      rw [hrb, bind_ok_py]
      by_cases hs : pyStrip frag = [] <;> simp [padFrag, hs] <;> rfl
  rw [render_spellblock, hattempt]

/-- C2 amended: a document made of a tilde-free prefix, one well-formed
content-wrapping pair with tilde-free content, and a tilde-free suffix
expands so that every tag occurrence is consumed: the output is the prefix,
the block's padded fragment, and the suffix.  When the resolved fragment is
itself tilde-free, the output contains no `~` at all, hence no tag literal
(every tag literal contains `~`), and the tokenizer finds no tag in it. -/
theorem tag_consumption_c2_amended (c : Collab β) (bk : β) (d : Nat)
    (a w1 name w2 content b frag : List Char)
    (ha : ∀ ch ∈ a, ch ≠ '~') (hcontent : ∀ ch ∈ content, ch ≠ '~')
    (hb : ∀ ch ∈ b, ch ≠ '~')
    (hw1 : ∀ ch ∈ w1, isWS ch = true) (hw2 : ∀ ch ∈ w2, isWS ch = true)
    (hnam : name ≠ []) (hword : ∀ ch ∈ name, isWord ch = true)
    (hcb : c.createBlock name content [] = .ok (some bk))
    (hrb : c.renderBlock bk = .ok frag) :
    process_spellblocks c (d + 2)
        (a ++ ('{' :: '~' :: (w1 ++ (name ++ (w2 ++
          ('~' :: '}' :: (content ++ (closeLit ++ b)))))))) =
      .ok (a ++ (padFrag frag ++ b)) ∧
    ((∀ ch ∈ frag, ch ≠ '~') →
      (∀ ch ∈ a ++ (padFrag frag ++ b), ch ≠ '~') ∧
      collectTags (a ++ (padFrag frag ++ b)) = []) := by
  set suf : List Char := content ++ (closeLit ++ b) with hsuf
  set intC : List Char := '~' :: (w1 ++ (name ++ (w2 ++ (['~', '}'] : List Char))))
    with hintC
  set tail3 : List Char := ['~', '~', '}'] with htail3
  have hform1 : intC ++ suf = '~' :: (w1 ++ (name ++ (w2 ++ ('~' :: '}' :: suf)))) := by
    simp [hintC, List.append_assoc]
  have hbody : ('{' : Char) :: '~' :: (w1 ++ (name ++ (w2 ++ ('~' :: '}' :: suf))))
      = '{' :: (intC ++ suf) := by
    rw [hform1]
  have hintNoBrace : ∀ ch ∈ intC, ch ≠ '{' := by
    intro ch hch
    rw [hintC] at hch
    simp only [List.mem_cons, List.mem_append] at hch
    rcases hch with h | ((h | (h | (h | h))))
    · subst h; decide
    · exact ws_ne_brace (hw1 ch h)
    · exact word_ne_brace (hword ch h)
    · exact ws_ne_brace (hw2 ch h)
    · rcases h with h | h | h
      · subst h; decide
      · subst h; decide
      · simp at h
  have htail3NoBrace : ∀ ch ∈ tail3, ch ≠ '{' := by
    intro ch hch
    rw [htail3] at hch
    simp only [List.mem_cons, List.not_mem_nil, or_false] at hch
    rcases hch with h | (h | h) <;> subst h <;> decide
  have hclb : closeLit ++ b = '{' :: (tail3 ++ b) := rfl
  -- stage 1: the malformed-block detector leaves the document unchanged
  obtain ⟨p1, q1, p2, q2, hle, hct⟩ :=
    collectTags_singlePair a w1 name w2 content b ha hcontent hb hw1 hw2 hnam hword
  have hdet : detect_malformed_blocks c
      (a ++ ('{' :: '~' :: (w1 ++ (name ++ (w2 ++ ('~' :: '}' :: suf)))))) =
      .ok (a ++ ('{' :: '~' :: (w1 ++ (name ++ (w2 ++ ('~' :: '}' :: suf)))))) := by
    rw [detect_malformed_blocks, detectEvents, hct]
    have hev : eventsOfTags [⟨.opening, p1, q1, name⟩, ⟨.closing, p2, q2, []⟩]
        = [] := by
      simp [eventsOfTags, matchLoop]
    rw [hev]
    rfl
  -- stage 2: no self-closing match anywhere
  have hSelf1 : matchSelfCloseAt ('{' :: (intC ++ suf)) = none := by
    rw [← hbody]
    exact matchSelfCloseAt_built w1 name w2 suf hw1 hw2 hnam hword
  have hNSself : NoStarts matchSelfCloseAt
      (a ++ ('{' :: '~' :: (w1 ++ (name ++ (w2 ++ ('~' :: '}' :: suf)))))) [] := by
    have h5 : NoStarts matchSelfCloseAt b [] :=
      noStarts_tildeFree _ mSelf_tailTilde b [] hb (by simp)
    have h4 : NoStarts matchSelfCloseAt (tail3 ++ b) [] :=
      noStarts_append _ tail3 b []
        (noStarts_cast (noStarts_noBrace _ mSelf_headBrace tail3 b htail3NoBrace)
          (by simp)) h5
    have h3cl : NoStarts matchSelfCloseAt (closeLit ++ b) [] := by
      rw [hclb]
      have hsing : NoStarts matchSelfCloseAt ['{'] ((tail3 ++ b) ++ []) :=
        noStarts_cast (noStarts_singleton _ '{' (tail3 ++ b)
          (matchSelfCloseAt_closeLit b)) (by simp)
      have := noStarts_append _ ['{'] (tail3 ++ b) [] hsing h4
      simpa using this
    have h3 : NoStarts matchSelfCloseAt suf [] := by
      rw [hsuf]
      refine noStarts_append _ content (closeLit ++ b) [] ?_ h3cl
      refine noStarts_cast (noStarts_tildeFree _ mSelf_tailTilde content
        ((closeLit ++ b)) hcontent ?_) (by simp)
      rw [hclb]
      exact head_cons_ne_tilde (by decide) _
    have h2 : NoStarts matchSelfCloseAt (intC ++ suf) [] :=
      noStarts_append _ intC suf []
        (noStarts_cast (noStarts_noBrace _ mSelf_headBrace intC suf hintNoBrace)
          (by simp)) h3
    have h1 : NoStarts matchSelfCloseAt ('{' :: (intC ++ suf)) [] := by
      have hsing : NoStarts matchSelfCloseAt ['{'] ((intC ++ suf) ++ []) :=
        noStarts_cast (noStarts_singleton _ '{' (intC ++ suf) hSelf1) (by simp)
      have := noStarts_append _ ['{'] (intC ++ suf) [] hsing h2
      simpa using this
    refine noStarts_append _ a _ [] ?_ ?_
    · refine noStarts_cast (noStarts_tildeFree _ mSelf_tailTilde a
        ('{' :: '~' :: (w1 ++ (name ++ (w2 ++ ('~' :: '}' :: suf))))) ha
        (head_cons_ne_tilde (by decide) _)) (by simp)
    · rw [hbody]
      exact h1
  have hpsc : process_self_closing_blocks c (process_spellblocks c (d + 1))
      ((a ++ ('{' :: '~' :: (w1 ++ (name ++ (w2 ++ ('~' :: '}' :: suf)))))).length + 1)
      (a ++ ('{' :: '~' :: (w1 ++ (name ++ (w2 ++ ('~' :: '}' :: suf)))))) =
      .ok (a ++ ('{' :: '~' :: (w1 ++ (name ++ (w2 ++ ('~' :: '}' :: suf)))))) :=
    psc_identity c _ _ _ hNSself (by omega)
  -- stage 3: the content-block pass substitutes the single pair
  have hOpen1 : matchOpenAt ('{' :: (intC ++ suf)) =
      some (2 + w1.length + name.length + w2.length + 0 + 2, name, []) := by
    rw [← hbody]
    exact matchOpenAt_built w1 name w2 suf hw1 hw2 hnam hword
  have hOb : NoStarts matchOpenAt b [] :=
    noStarts_tildeFree _ mOpen_tailTilde b [] hb (by simp)
  have hrsb := render_spellblock_single c d name content bk frag hcontent hcb hrb
  have hdrop : ('{' :: (intC ++ suf)).drop
      (2 + w1.length + name.length + w2.length + 0 + 2) = suf := by
    have hform2 : ('{' : Char) :: (intC ++ suf) = ('{' :: intC) ++ suf := by simp
    have hlen : ('{' :: intC).length
        = 2 + w1.length + name.length + w2.length + 0 + 2 := by
      rw [hintC]
      simp only [List.length_cons, List.length_append, List.length_nil]
      omega
    rw [hform2, ← hlen, List.drop_left]
  have hffc : findFirstClose suf = some (content, b) := by
    rw [hsuf]
    exact ffc_built b content hcontent
  have hbodyRes : process_content_blocks c (process_spellblocks c (d + 1))
      ((intC ++ suf).length + 1 + 1) ('{' :: (intC ++ suf)) =
      .ok (padFrag frag ++ b) := by
    rw [process_content_blocks]
    simp only [hOpen1, hdrop, hffc]
    rw [hrsb, bind_ok_py]
    have htail : process_content_blocks c (process_spellblocks c (d + 1))
        ((intC ++ suf).length + 1) b = .ok b := by
      refine pcb_identity c _ _ _ hOb ?_
      simp only [List.length_append, hsuf]
      omega
    rw [htail, bind_ok_py]
    rfl
  have hOa : NoStarts matchOpenAt a
      ('{' :: '~' :: (w1 ++ (name ++ (w2 ++ ('~' :: '}' :: suf))))) :=
    noStarts_tildeFree _ mOpen_tailTilde a _ ha (head_cons_ne_tilde (by decide) _)
  refine ⟨?_, ?_⟩
  · rw [process_spellblocks, hdet, bind_ok_py, hpsc, bind_ok_py]
    have harith : (a ++ ('{' :: '~' :: (w1 ++ (name ++ (w2 ++
        ('~' :: '}' :: suf)))))).length + 1 =
        a.length + (('{' :: '~' :: (w1 ++ (name ++ (w2 ++
          ('~' :: '}' :: suf))))).length + 1) := by
      simp only [List.length_append]
      omega
    rw [harith, pcb_skip c _ a _ _ hOa]
    have hlen2 : ('{' :: '~' :: (w1 ++ (name ++ (w2 ++ ('~' :: '}' :: suf))))).length + 1
        = (intC ++ suf).length + 1 + 1 := by
      rw [hintC]
      simp only [List.length_cons, List.length_append, List.length_nil]
      omega
    rw [hlen2, hbody, hbodyRes]
    rfl
  · intro hfrag
    have hmem : ∀ ch ∈ a ++ (padFrag frag ++ b), ch ≠ '~' := by
      intro ch hch
      simp only [List.mem_append] at hch
      rcases hch with h | (h | h)
      · exact ha ch h
      · rw [padFrag] at h
        split at h
        · simp at h
        · simp only [nl2, List.mem_append, List.mem_cons,
            List.not_mem_nil, or_false, or_self] at h
          rcases h with (h | h) | h
          · subst h; decide
          · exact hfrag ch (mem_pyStrip h)
          · subst h; decide
      · exact hb ch h
    exact ⟨hmem, collectTags_tildeFree _ hmem⟩


/-- Does a pipeline result succeed with a text still containing the closing
literal? -/
def okContainsClose : PyRes → Bool
  | .ok t => hasCloseLit t
  | .error _ => false

/-- C2 counterexample: the nested document
`\x7b~ card ~\x7douter \x7b~ alert ~\x7dinner\x7b~~\x7d still outer\x7b~~\x7d`
is well-formed in the claim's sense (the structural matcher finds its tags
correctly paired, emitting no error event), yet after block expansion the
output still contains the closing-tag literal `\x7b~~\x7d`: the lazy
content group ends the first block at the textually first closer, and the
second closer survives substitution, so not every tag occurrence is
consumed. -/
theorem tag_consumption_c2_counterexample :
    detectEvents nestedDoc = [] ∧
    okContainsClose (process_spellblocks probeCollab 5 nestedDoc) = true := by
  constructor
  · decide
  · rfl

theorem tag_consumption_c2_amended_witness :
    process_spellblocks probeCollab 2
        ("x ".data ++ ('{' :: '~' :: (" ".data ++ ("card".data ++ (" ".data ++
          ('~' :: '}' :: ("hi".data ++ (closeLit ++ " y".data)))))))) =
      .ok ("x ".data ++ (padFrag "hi".data ++ " y".data)) ∧
    ((∀ ch ∈ "hi".data, ch ≠ '~') →
      (∀ ch ∈ "x ".data ++ (padFrag "hi".data ++ " y".data), ch ≠ '~') ∧
      collectTags ("x ".data ++ (padFrag "hi".data ++ " y".data)) = []) :=
  tag_consumption_c2_amended probeCollab "hi".data 0 "x ".data " ".data
    "card".data " ".data "hi".data " y".data "hi".data
    (by decide) (by decide) (by decide) (by decide) (by decide)
    (by decide) (by decide) rfl rfl

end Spellbook
